import Mathlib

/-!
Verification of the terminal-emulator core of Terminaux-2.0 against its
specification.  The Rust sources are shallowly embedded: `usize` becomes `Nat`
(with `usize::MAX` as the explicit sentinel constant `usizeMax`), byte slices
become `List Nat`, `Vec` becomes `List`, and fallible or panicking code paths
are made explicit with `Option`/`Except` or dedicated result types.

Sections:
  1. ANSI/CSI parser        (src/terminal_emulator/ansi.rs)
  2. Format tracker         (src/terminal_emulator/format_tracker.rs)
  3. Screen buffer          (src/terminal_emulator/buffer.rs and mod.rs)
  4. Theorems for the claims
-/

namespace Terminaux

/-- The value of `usize::MAX` on the 64-bit targets the program is built for. -/
def usizeMax : Nat := 2 ^ 64 - 1

/-! ## Section 1: ANSI/CSI parser (ansi.rs) -/

/-- Mode values used by `mode_from_params`.  Modelled from the spec: the `Mode`
enum itself is referenced from `ansi.rs` via `use super::Mode` but its
declaration is absent from the sources under `src/`; from its uses
(`Mode::Decckm`, `Mode::Unknown(params.to_vec())`) and the spec's glossary
(DECCKM = cursor-keys mode) it has a `Decckm` variant and an `Unknown` variant
carrying the raw parameter bytes. -/
inductive Mode where
  | Decckm
  | Unknown (params : List Nat)
deriving Repr, DecidableEq

/-- `SelectGraphicRendition` from ansi.rs (payloads are byte values). -/
inductive SelectGraphicRendition where
  | Reset
  | Bold
  | BlinkSlow
  | Faint
  | Italic
  | Underline
  | BlinkRapid
  | Reverse
  | Conceal
  | Reveal
  | NotItalic
  | NotUnderline
  | NormalIntensity
  | ForegroundDefault
  | ForegroundBlack
  | ForegroundRed
  | ForegroundGreen
  | ForegroundYellow
  | ForegroundBlue
  | ForegroundMagenta
  | ForegroundCyan
  | ForegroundWhite
  | BackgroundDefault
  | BackgroundBlack
  | BackgroundRed
  | BackgroundGreen
  | BackgroundYellow
  | BackgroundBlue
  | BackgroundMagenta
  | BackgroundCyan
  | BackgroundWhite
  | ForegroundBrightBlack
  | ForegroundBrightRed
  | ForegroundBrightGreen
  | ForegroundBrightYellow
  | ForegroundBrightBlue
  | ForegroundBrightMagenta
  | ForegroundBrightCyan
  | ForegroundBrightWhite
  | BackgroundBrightBlack
  | BackgroundBrightRed
  | BackgroundBrightGreen
  | BackgroundBrightYellow
  | BackgroundBrightBlue
  | BackgroundBrightMagenta
  | BackgroundBrightCyan
  | BackgroundBrightWhite
  | Foreground8Bit (n : Nat)
  | Background8Bit (n : Nat)
  | ForegroundTrueColor (r g b : Nat)
  | BackgroundTrueColor (r g b : Nat)
  | Unknown (val : Nat)
deriving Repr

/-- An injective numeric encoding of `SelectGraphicRendition` (the derived
`DecidableEq` for an inductive this wide produces an impractically large
term, so equality is decided through this encoding instead). -/
def SelectGraphicRendition.encode : SelectGraphicRendition → Nat × Nat × Nat × Nat
  | .Reset => (0, 0, 0, 0)
  | .Bold => (1, 0, 0, 0)
  | .BlinkSlow => (2, 0, 0, 0)
  | .Faint => (3, 0, 0, 0)
  | .Italic => (4, 0, 0, 0)
  | .Underline => (5, 0, 0, 0)
  | .BlinkRapid => (6, 0, 0, 0)
  | .Reverse => (7, 0, 0, 0)
  | .Conceal => (8, 0, 0, 0)
  | .Reveal => (9, 0, 0, 0)
  | .NotItalic => (10, 0, 0, 0)
  | .NotUnderline => (11, 0, 0, 0)
  | .NormalIntensity => (12, 0, 0, 0)
  | .ForegroundDefault => (13, 0, 0, 0)
  | .ForegroundBlack => (14, 0, 0, 0)
  | .ForegroundRed => (15, 0, 0, 0)
  | .ForegroundGreen => (16, 0, 0, 0)
  | .ForegroundYellow => (17, 0, 0, 0)
  | .ForegroundBlue => (18, 0, 0, 0)
  | .ForegroundMagenta => (19, 0, 0, 0)
  | .ForegroundCyan => (20, 0, 0, 0)
  | .ForegroundWhite => (21, 0, 0, 0)
  | .BackgroundDefault => (22, 0, 0, 0)
  | .BackgroundBlack => (23, 0, 0, 0)
  | .BackgroundRed => (24, 0, 0, 0)
  | .BackgroundGreen => (25, 0, 0, 0)
  | .BackgroundYellow => (26, 0, 0, 0)
  | .BackgroundBlue => (27, 0, 0, 0)
  | .BackgroundMagenta => (28, 0, 0, 0)
  | .BackgroundCyan => (29, 0, 0, 0)
  | .BackgroundWhite => (30, 0, 0, 0)
  | .ForegroundBrightBlack => (31, 0, 0, 0)
  | .ForegroundBrightRed => (32, 0, 0, 0)
  | .ForegroundBrightGreen => (33, 0, 0, 0)
  | .ForegroundBrightYellow => (34, 0, 0, 0)
  | .ForegroundBrightBlue => (35, 0, 0, 0)
  | .ForegroundBrightMagenta => (36, 0, 0, 0)
  | .ForegroundBrightCyan => (37, 0, 0, 0)
  | .ForegroundBrightWhite => (38, 0, 0, 0)
  | .BackgroundBrightBlack => (39, 0, 0, 0)
  | .BackgroundBrightRed => (40, 0, 0, 0)
  | .BackgroundBrightGreen => (41, 0, 0, 0)
  | .BackgroundBrightYellow => (42, 0, 0, 0)
  | .BackgroundBrightBlue => (43, 0, 0, 0)
  | .BackgroundBrightMagenta => (44, 0, 0, 0)
  | .BackgroundBrightCyan => (45, 0, 0, 0)
  | .BackgroundBrightWhite => (46, 0, 0, 0)
  | .Foreground8Bit n => (47, n, 0, 0)
  | .Background8Bit n => (48, n, 0, 0)
  | .ForegroundTrueColor r g b => (49, r, g, b)
  | .BackgroundTrueColor r g b => (50, r, g, b)
  | .Unknown val => (51, val, 0, 0)

/-- The left inverse of `SelectGraphicRendition.encode`. -/
def SelectGraphicRendition.decode : Nat × Nat × Nat × Nat → SelectGraphicRendition
  | (0, _, _, _) => .Reset
  | (1, _, _, _) => .Bold
  | (2, _, _, _) => .BlinkSlow
  | (3, _, _, _) => .Faint
  | (4, _, _, _) => .Italic
  | (5, _, _, _) => .Underline
  | (6, _, _, _) => .BlinkRapid
  | (7, _, _, _) => .Reverse
  | (8, _, _, _) => .Conceal
  | (9, _, _, _) => .Reveal
  | (10, _, _, _) => .NotItalic
  | (11, _, _, _) => .NotUnderline
  | (12, _, _, _) => .NormalIntensity
  | (13, _, _, _) => .ForegroundDefault
  | (14, _, _, _) => .ForegroundBlack
  | (15, _, _, _) => .ForegroundRed
  | (16, _, _, _) => .ForegroundGreen
  | (17, _, _, _) => .ForegroundYellow
  | (18, _, _, _) => .ForegroundBlue
  | (19, _, _, _) => .ForegroundMagenta
  | (20, _, _, _) => .ForegroundCyan
  | (21, _, _, _) => .ForegroundWhite
  | (22, _, _, _) => .BackgroundDefault
  | (23, _, _, _) => .BackgroundBlack
  | (24, _, _, _) => .BackgroundRed
  | (25, _, _, _) => .BackgroundGreen
  | (26, _, _, _) => .BackgroundYellow
  | (27, _, _, _) => .BackgroundBlue
  | (28, _, _, _) => .BackgroundMagenta
  | (29, _, _, _) => .BackgroundCyan
  | (30, _, _, _) => .BackgroundWhite
  | (31, _, _, _) => .ForegroundBrightBlack
  | (32, _, _, _) => .ForegroundBrightRed
  | (33, _, _, _) => .ForegroundBrightGreen
  | (34, _, _, _) => .ForegroundBrightYellow
  | (35, _, _, _) => .ForegroundBrightBlue
  | (36, _, _, _) => .ForegroundBrightMagenta
  | (37, _, _, _) => .ForegroundBrightCyan
  | (38, _, _, _) => .ForegroundBrightWhite
  | (39, _, _, _) => .BackgroundBrightBlack
  | (40, _, _, _) => .BackgroundBrightRed
  | (41, _, _, _) => .BackgroundBrightGreen
  | (42, _, _, _) => .BackgroundBrightYellow
  | (43, _, _, _) => .BackgroundBrightBlue
  | (44, _, _, _) => .BackgroundBrightMagenta
  | (45, _, _, _) => .BackgroundBrightCyan
  | (46, _, _, _) => .BackgroundBrightWhite
  | (47, n, _, _) => .Foreground8Bit n
  | (48, n, _, _) => .Background8Bit n
  | (49, r, g, b) => .ForegroundTrueColor r g b
  | (50, r, g, b) => .BackgroundTrueColor r g b
  | (_, val, _, _) => .Unknown val

theorem SelectGraphicRendition.decode_encode (x : SelectGraphicRendition) :
    SelectGraphicRendition.decode (SelectGraphicRendition.encode x) = x := by
  cases x <;> rfl

instance : DecidableEq SelectGraphicRendition := fun a b =>
  decidable_of_iff (a.encode = b.encode)
    ⟨fun h => by rw [← a.decode_encode, ← b.decode_encode, h], fun h => by rw [h]⟩

/-- `TerminalOutput` from ansi.rs. -/
inductive TerminalOutput where
  | SetCursorPos (x y : Option Nat)
  | ClearForwards
  | SetCursorVisibility (visible : Bool)
  | CarriageReturn
  | Backspace
  | Newline
  | ClearAll
  | Sgr (s : SelectGraphicRendition)
  | Data (bytes : List Nat)
  | Invalid
  | SetMode (m : Mode)
  | ResetMode (m : Mode)
  | Delete (n : Nat)
  | ClearLineForwards
  | InsertSpaces (n : Nat)
  | EnterAltScreen
  | ExitAltScreen
  | CursorUp (n : Nat)
  | CursorDown (n : Nat)
  | CursorForward (n : Nat)
  | CursorBackward (n : Nat)
deriving Repr, DecidableEq

/-- `SelectGraphicRendition::from_usize`.  The `as u8` casts become `% 256`. -/
def sgrFromUsize (val : Nat) (params : List (Option Nat)) : SelectGraphicRendition :=
  if val = 0 then .Reset
  else if val = 1 then .Bold
  else if val = 2 then .Faint
  else if val = 3 then .Italic
  else if val = 4 then .Underline
  else if val = 5 then .BlinkSlow
  else if val = 6 then .BlinkRapid
  else if val = 7 then .Reverse
  else if val = 8 then .Conceal
  else if val = 22 then .NormalIntensity
  else if val = 23 then .NotItalic
  else if val = 24 then .NotUnderline
  else if val = 28 then .Reveal
  else if val = 30 then .ForegroundBlack
  else if val = 31 then .ForegroundRed
  else if val = 32 then .ForegroundGreen
  else if val = 33 then .ForegroundYellow
  else if val = 34 then .ForegroundBlue
  else if val = 35 then .ForegroundMagenta
  else if val = 36 then .ForegroundCyan
  else if val = 37 then .ForegroundWhite
  else if val = 38 then
    if 2 ≤ params.length then
      match params.head? with
      | some (some 5) =>
        match (params.get? 1).join with
        | some n => .Foreground8Bit (n % 256)
        | none => .Unknown val
      | some (some 2) =>
        if 4 ≤ params.length then
          .ForegroundTrueColor (((params.get? 1).join.getD 0) % 256)
            (((params.get? 2).join.getD 0) % 256) (((params.get? 3).join.getD 0) % 256)
        else .Unknown val
      | _ => .Unknown val
    else .Unknown val
  else if val = 40 then .BackgroundBlack
  else if val = 41 then .BackgroundRed
  else if val = 42 then .BackgroundGreen
  else if val = 43 then .BackgroundYellow
  else if val = 44 then .BackgroundBlue
  else if val = 45 then .BackgroundMagenta
  else if val = 46 then .BackgroundCyan
  else if val = 47 then .BackgroundWhite
  else if val = 48 then
    if 2 ≤ params.length then
      match params.head? with
      | some (some 5) =>
        match (params.get? 1).join with
        | some n => .Background8Bit (n % 256)
        | none => .Unknown val
      | some (some 2) =>
        if 4 ≤ params.length then
          .BackgroundTrueColor (((params.get? 1).join.getD 0) % 256)
            (((params.get? 2).join.getD 0) % 256) (((params.get? 3).join.getD 0) % 256)
        else .Unknown val
      | _ => .Unknown val
    else .Unknown val
  else if val = 90 then .ForegroundBrightBlack
  else if val = 91 then .ForegroundBrightRed
  else if val = 92 then .ForegroundBrightGreen
  else if val = 93 then .ForegroundBrightYellow
  else if val = 94 then .ForegroundBrightBlue
  else if val = 95 then .ForegroundBrightMagenta
  else if val = 96 then .ForegroundBrightCyan
  else if val = 97 then .ForegroundBrightWhite
  else if val = 100 then .BackgroundBrightBlack
  else if val = 101 then .BackgroundBrightRed
  else if val = 102 then .BackgroundBrightGreen
  else if val = 103 then .BackgroundBrightYellow
  else if val = 104 then .BackgroundBrightBlue
  else if val = 105 then .BackgroundBrightMagenta
  else if val = 106 then .BackgroundBrightCyan
  else if val = 107 then .BackgroundBrightWhite
  else .Unknown val

/-- `mode_from_params` from ansi.rs: `b"?1"` is `[0x3f, 0x31]`. -/
def modeFromParams (params : List Nat) : Mode :=
  if params = [0x3f, 0x31] then .Decckm else .Unknown params

/-- `is_csi_terminator` from ansi.rs: the source range is `0x40..=0x7d`. -/
def isCsiTerminator (b : Nat) : Bool :=
  0x40 ≤ b && b ≤ 0x7d

/-- `is_csi_param` from ansi.rs. -/
def isCsiParam (b : Nat) : Bool :=
  0x30 ≤ b && b ≤ 0x3f

/-- `is_csi_intermediate` from ansi.rs. -/
def isCsiIntermediate (b : Nat) : Bool :=
  0x20 ≤ b && b ≤ 0x2f

/-- `extract_param` from ansi.rs. -/
def extractParam (idx : Nat) (params : List (Option Nat)) : Option Nat :=
  (params.get? idx).join

/-- Decimal digit test for `str::parse::<usize>`. -/
def isAsciiDigit (b : Nat) : Bool :=
  0x30 ≤ b && b ≤ 0x39

/-- Numeric value of a string of decimal digit bytes. -/
def digitsToNat (bytes : List Nat) : Nat :=
  bytes.foldl (fun acc b => acc * 10 + (b - 0x30)) 0

/-- `parse_param_as_usize` from ansi.rs.  The bytes fed to it are CSI parameter
bytes (ASCII, hence valid UTF-8, so the `expect` never fires); an empty field
parses to `None`; `str::parse::<usize>` succeeds exactly on non-empty strings
of decimal digits whose value fits in `usize`. -/
def parseParamAsUsize (paramBytes : List Nat) : Except Unit (Option Nat) :=
  if paramBytes = [] then .ok none
  else if paramBytes.all isAsciiDigit then
    if digitsToNat paramBytes ≤ usizeMax then .ok (some (digitsToNat paramBytes))
    else .error ()
  else .error ()

/-- Collects a list of parse results, failing if any element failed (the
`collect::<Result<Vec<_>, ()>>` in `split_params_into_semicolon_delimited_usize`). -/
def collectParams : List (Except Unit (Option Nat)) → Except Unit (List (Option Nat))
  | [] => .ok []
  | x :: xs =>
    match x, collectParams xs with
    | .ok v, .ok vs => .ok (v :: vs)
    | _, _ => .error ()

/-- `split_params_into_semicolon_delimited_usize` from ansi.rs
(`b';'` is 0x3b). -/
def splitParamsIntoSemicolonDelimitedUsize (params : List Nat) :
    Except Unit (List (Option Nat)) :=
  collectParams ((params.splitOn 0x3b).map parseParamAsUsize)

/-- `CsiParserState` from ansi.rs. -/
inductive CsiParserState where
  | Params
  | Intermediates
  | Finished (b : Nat)
  | Invalid
  | InvalidFinished
deriving Repr, DecidableEq

/-- `CsiParser` from ansi.rs. -/
structure CsiParser where
  state : CsiParserState
  params : List Nat
  intermediates : List Nat
deriving Repr, DecidableEq

/-- `CsiParser::new`. -/
def CsiParser.new : CsiParser :=
  { state := .Params, params := [], intermediates := [] }

/-- `CsiParser::push`.  The Rust function panics when pushed after finishing;
that path is unreachable from `AnsiParser::push` (which resets on every
finished or invalid state), and is modelled as the identity. -/
def CsiParser.push (p : CsiParser) (b : Nat) : CsiParser :=
  match p.state with
  | .Params =>
    if isCsiParam b then { p with params := p.params ++ [b] }
    else if isCsiIntermediate b then
      { p with intermediates := p.intermediates ++ [b], state := .Intermediates }
    else if isCsiTerminator b then { p with state := .Finished b }
    else { p with state := .Invalid }
  | .Intermediates =>
    if isCsiParam b then { p with state := .Invalid }
    else if isCsiIntermediate b then { p with intermediates := p.intermediates ++ [b] }
    else if isCsiTerminator b then { p with state := .Finished b }
    else { p with state := .Invalid }
  | .Invalid =>
    if isCsiTerminator b then { p with state := .InvalidFinished } else p
  | .Finished _ => p
  | .InvalidFinished => p

/-- `AnsiParserInner` from ansi.rs. -/
inductive AnsiParserInner where
  | Empty
  | Escape
  | Csi (c : CsiParser)
deriving Repr, DecidableEq

/-- The mutable state threaded through the byte loop of `AnsiParser::push`:
the parser state, the output built so far, and the pending `Data` accumulator. -/
structure AnsiFoldState where
  inner : AnsiParserInner
  output : List TerminalOutput
  dataOutput : List Nat
deriving Repr, DecidableEq

/-- `push_data_if_non_empty` from ansi.rs. -/
def pushDataIfNonEmpty (st : AnsiFoldState) : AnsiFoldState :=
  if st.dataOutput = [] then st
  else { st with output := st.output ++ [.Data st.dataOutput], dataOutput := [] }

/-- The body of the SGR `while i < params.len()` loop in the `Finished(b'm')`
arm of `AnsiParser::push`.  `fuel` bounds the number of iterations; the loop
index grows by at least one per iteration so `fuel = params.length` suffices. -/
def sgrLoop (params : List (Option Nat)) : Nat → Nat → List TerminalOutput
  | _, 0 => []
  | i, fuel + 1 =>
    if i < params.length then
      let code := (params.get? i).join.getD 0
      let step : SelectGraphicRendition × Nat :=
        if code = 39 then (.ForegroundDefault, 0)
        else if code = 49 then (.BackgroundDefault, 0)
        else if code = 38 ∨ code = 48 then
          if params.length ≤ i + 1 then (.Unknown code, 0)
          else
            let subcode := (params.get? (i + 1)).join.getD 0
            if code = 38 ∧ subcode = 5 then
              if i + 2 < params.length then
                (.Foreground8Bit (((params.get? (i + 2)).join.getD 0) % 256), 2)
              else (.Unknown code, 0)
            else if code = 38 ∧ subcode = 2 then
              if i + 4 < params.length then
                (.ForegroundTrueColor (((params.get? (i + 2)).join.getD 0) % 256)
                  (((params.get? (i + 3)).join.getD 0) % 256)
                  (((params.get? (i + 4)).join.getD 0) % 256), 4)
              else (.Unknown code, 0)
            else if code = 48 ∧ subcode = 5 then
              if i + 2 < params.length then
                (.Background8Bit (((params.get? (i + 2)).join.getD 0) % 256), 2)
              else (.Unknown code, 0)
            else if code = 48 ∧ subcode = 2 then
              if i + 4 < params.length then
                (.BackgroundTrueColor (((params.get? (i + 2)).join.getD 0) % 256)
                  (((params.get? (i + 3)).join.getD 0) % 256)
                  (((params.get? (i + 4)).join.getD 0) % 256), 4)
              else (.Unknown code, 0)
            else (.Unknown code, 0)
        else (sgrFromUsize code params, 0)
      .Sgr step.1 :: sgrLoop params (i + step.2 + 1) fuel
    else []

/-- Dispatch on a finished CSI sequence: the `CsiParserState::Finished(_)` arms
of the big match in `AnsiParser::push`.  Returns the emitted commands; every
arm resets the parser to `Empty`.  The Rust match contains second, unreachable
arms for `b'h'`, `b'K'` and `b'l'` (duplicate patterns); only the first arm of
each pair is live and is what is modelled here. -/
def csiDispatch (fb : Nat) (params : List Nat) : List TerminalOutput :=
  if fb = 0x48 then -- b'H'
    match splitParamsIntoSemicolonDelimitedUsize params with
    | .error _ => [.Invalid]
    | .ok ps => [.SetCursorPos (some ((extractParam 0 ps).getD 1)) (some ((extractParam 1 ps).getD 1))]
  else if fb = 0x4b then -- b'K', first arm
    match parseParamAsUsize params with
    | .error _ => [.Invalid]
    | .ok p => if p.getD 0 = 0 then [.ClearLineForwards] else [.Invalid]
  else if fb = 0x47 then -- b'G'
    match parseParamAsUsize params with
    | .error _ => [.Invalid]
    | .ok p => [.SetCursorPos (some (p.getD 1)) none]
  else if fb = 0x4a then -- b'J'
    match parseParamAsUsize params with
    | .error _ => [.Invalid]
    | .ok p =>
      if p.getD 0 = 0 then [.ClearForwards]
      else if p.getD 0 = 2 ∨ p.getD 0 = 3 then [.ClearAll]
      else [.Invalid]
  else if fb = 0x68 then -- b'h', first arm; b"?1049" is [0x3f,0x31,0x30,0x34,0x39]
    if params = [0x3f, 0x31, 0x30, 0x34, 0x39] then [.EnterAltScreen]
    else [.SetMode (modeFromParams params)]
  else if fb = 0x6c then -- b'l', first arm
    if params = [0x3f, 0x31, 0x30, 0x34, 0x39] then [.ExitAltScreen]
    else [.ResetMode (modeFromParams params)]
  else if fb = 0x50 then -- b'P'
    match parseParamAsUsize params with
    | .error _ => [.Invalid]
    | .ok p => [.Delete (p.getD 1)]
  else if fb = 0x6d then -- b'm'
    match splitParamsIntoSemicolonDelimitedUsize params with
    | .error _ => [.Invalid]
    | .ok ps => sgrLoop ps 0 ps.length
  else if fb = 0x41 then -- b'A'
    match parseParamAsUsize params with
    | .error _ => [.Invalid]
    | .ok p => [.CursorUp (p.getD 1)]
  else if fb = 0x43 then -- b'C'
    match parseParamAsUsize params with
    | .error _ => [.Invalid]
    | .ok p => [.CursorForward (p.getD 1)]
  else if fb = 0x42 then -- b'B'
    match parseParamAsUsize params with
    | .error _ => [.Invalid]
    | .ok p => [.CursorDown (p.getD 1)]
  else if fb = 0x44 then -- b'D'
    match parseParamAsUsize params with
    | .error _ => [.Invalid]
    | .ok p => [.CursorBackward (p.getD 1)]
  else if fb = 0x40 then -- b'@'
    match parseParamAsUsize params with
    | .error _ => [.Invalid]
    | .ok p => [.InsertSpaces (p.getD 1)]
  else [.Invalid] -- unhandled csi code

/-- One iteration of the byte loop in `AnsiParser::push`. -/
def ansiPushByte (st : AnsiFoldState) (b : Nat) : AnsiFoldState :=
  match st.inner with
  | .Empty =>
    if b = 0x1b then { st with inner := .Escape }
    else if b = 0x0d then
      let st := pushDataIfNonEmpty st
      { st with output := st.output ++ [.CarriageReturn] }
    else if b = 0x0a then
      let st := pushDataIfNonEmpty st
      { st with output := st.output ++ [.Newline] }
    else if b = 0x08 ∨ b = 0x7f then
      let st := pushDataIfNonEmpty st
      { st with output := st.output ++ [.Backspace] }
    else { st with dataOutput := st.dataOutput ++ [b] }
  | .Escape =>
    let st := pushDataIfNonEmpty st
    if b = 0x5b then { st with inner := .Csi CsiParser.new }
    else { st with inner := .Empty }
  | .Csi c =>
    let c := c.push b
    match c.state with
    | .Finished fb =>
      { st with output := st.output ++ csiDispatch fb c.params, inner := .Empty }
    | .Invalid =>
      { st with output := st.output ++ [.Invalid], inner := .Empty }
    | _ => { st with inner := .Csi c }

/-- `AnsiParser::push`: fold the byte loop, then flush any pending data. -/
def ansiPush (inner : AnsiParserInner) (incoming : List Nat) :
    AnsiParserInner × List TerminalOutput :=
  let st := incoming.foldl ansiPushByte { inner := inner, output := [], dataOutput := [] }
  (st.inner, (pushDataIfNonEmpty st).output)

/-- Output of pushing a byte sequence into a freshly constructed `AnsiParser`. -/
def ansiParse (incoming : List Nat) : List TerminalOutput :=
  (ansiPush .Empty incoming).2

/-! ### Parser helper lemmas -/

theorem isCsiParam_eq_false_of_ge {b : Nat} (h : 0x40 ≤ b) : isCsiParam b = false := by
  simp only [isCsiParam, Bool.and_eq_false_iff, decide_eq_false_iff_not, not_le]
  omega

theorem isCsiIntermediate_eq_false_of_ge {b : Nat} (h : 0x40 ≤ b) :
    isCsiIntermediate b = false := by
  simp only [isCsiIntermediate, Bool.and_eq_false_iff, decide_eq_false_iff_not, not_le]
  omega

theorem isCsiTerminator_eq_true {b : Nat} (h1 : 0x40 ≤ b) (h2 : b ≤ 0x7d) :
    isCsiTerminator b = true := by
  simp only [isCsiTerminator, Bool.and_eq_true, decide_eq_true_eq]
  omega

/-- Folding a run of CSI parameter bytes in the `Params` substate just appends
them to the accumulated parameters. -/
theorem foldl_ansiPushByte_params (ps : List Nat) (h : ∀ b ∈ ps, isCsiParam b = true) :
    ∀ (out : List TerminalOutput) (d : List Nat) (c : CsiParser), c.state = .Params →
      ps.foldl ansiPushByte ⟨.Csi c, out, d⟩ =
        ⟨.Csi { c with params := c.params ++ ps }, out, d⟩ := by
  induction ps with
  | nil => intro out d c hc; simp
  | cons b bs ih =>
    intro out d c hc
    have hb : isCsiParam b = true := h b (List.mem_cons_self _ _)
    have hbs : ∀ x ∈ bs, isCsiParam x = true := fun x hx => h x (List.mem_cons_of_mem _ hx)
    have hstep : ansiPushByte ⟨.Csi c, out, d⟩ b =
        ⟨.Csi { c with params := c.params ++ [b] }, out, d⟩ := by
      simp [ansiPushByte, CsiParser.push, hc, hb]
    rw [List.foldl_cons, hstep, ih hbs out d _ (by simp [hc])]
    simp

/-! ### Claim C6 -/

/-- C6 counterexample: the claim says every byte `b` with `0x40 ≤ b ≤ 0x7E`
acts as a CSI terminator, but `is_csi_terminator` uses the range
`0x40..=0x7d`, so `0x7E` (`~`) sends the parser to the `Invalid` state instead
of finalizing: after `ESC [ 0x7E` the fresh CSI parser is in `Invalid`, no
`Finished` state is reached, and the parser emits `Invalid`. -/
theorem C6_counterexample :
    (CsiParser.new.push 0x7e).state = CsiParserState.Invalid ∧
      (∀ fb, (CsiParser.new.push 0x7e).state ≠ CsiParserState.Finished fb) ∧
      ansiParse [0x1b, 0x5b, 0x7e] = [.Invalid] := by
  refine ⟨by decide, ?_, by decide⟩
  intro fb h
  rw [show (CsiParser.new.push 0x7e).state = CsiParserState.Invalid from by decide] at h
  exact absurd h (by simp)

/-- C6 (amended): in the CSI parameter and intermediate states, every byte `b`
with `0x40 ≤ b ≤ 0x7D` (not `0x7E`) acts as a terminator: pushing it
finalizes the sequence into `Finished b`, preserving the accumulated parameter
and intermediate bytes for dispatch, and does not enter the invalid state. -/
theorem C6_terminator_finalizes (p : CsiParser) (b : Nat)
    (hstate : p.state = .Params ∨ p.state = .Intermediates)
    (h1 : 0x40 ≤ b) (h2 : b ≤ 0x7d) :
    (p.push b).state = .Finished b ∧ (p.push b).params = p.params ∧
      (p.push b).intermediates = p.intermediates := by
  have hp := isCsiParam_eq_false_of_ge h1
  have hi := isCsiIntermediate_eq_false_of_ge h1
  have ht := isCsiTerminator_eq_true h1 h2
  rcases hstate with h | h <;> simp [CsiParser.push, h, hp, hi, ht]

/-- C6 witness: the terminator theorem applied at the byte `H` (`0x48`) on a
fresh parser. -/
theorem C6_terminator_finalizes_witness :
    (CsiParser.new.push 0x48).state = .Finished 0x48 ∧
      (CsiParser.new.push 0x48).params = CsiParser.new.params ∧
      (CsiParser.new.push 0x48).intermediates = CsiParser.new.intermediates :=
  C6_terminator_finalizes CsiParser.new 0x48 (Or.inl rfl) (by decide) (by decide)

/-! ### Claim C7 -/

/-- C7 counterexample: the claim says CSI `?25h` produces a cursor-visibility
set command and `?7h` produces `SetMode(AutoWrap)`; in the code the first
`Finished(b'h')` match arm wins (the later arm handling `?25` is an
unreachable duplicate pattern), so `ESC [ ? 2 5 h` actually produces
`SetMode(Unknown("?25"))` and `ESC [ ? 7 h` produces `SetMode(Unknown("?7"))`. -/
theorem C7_counterexample :
    ansiParse [0x1b, 0x5b, 0x3f, 0x32, 0x35, 0x68] =
        [.SetMode (.Unknown [0x3f, 0x32, 0x35])] ∧
      ansiParse [0x1b, 0x5b, 0x3f, 0x32, 0x35, 0x68] ≠ [.SetCursorVisibility true] ∧
      ansiParse [0x1b, 0x5b, 0x3f, 0x37, 0x68] = [.SetMode (.Unknown [0x3f, 0x37])] := by
  refine ⟨by decide, by decide, by decide⟩

/-- C7 (amended): for every CSI sequence of parameter bytes terminated by the
final byte `h`: parameter bytes `?1049` produce the alt-screen set command
(`EnterAltScreen`); all other parameter strings produce
`SetMode(mode_from_params(params))`, which is `SetMode(Decckm)` (cursor-keys
mode) for `?1` and `SetMode(Unknown(params))` for everything else, including
`?25` and `?7`.  The final byte `l` mirrors this with `ExitAltScreen` /
`ResetMode`. -/
theorem C7_mode_dispatch (ps : List Nat) (h : ∀ b ∈ ps, isCsiParam b = true) :
    ansiParse (0x1b :: 0x5b :: ps ++ [0x68]) =
      [if ps = [0x3f, 0x31, 0x30, 0x34, 0x39] then .EnterAltScreen
       else .SetMode (modeFromParams ps)] ∧
    ansiParse (0x1b :: 0x5b :: ps ++ [0x6c]) =
      [if ps = [0x3f, 0x31, 0x30, 0x34, 0x39] then .ExitAltScreen
       else .ResetMode (modeFromParams ps)] := by
  have hesc : ansiPushByte ⟨.Empty, [], []⟩ 0x1b = ⟨.Escape, [], []⟩ := by decide
  have hbracket : ansiPushByte ⟨.Escape, [], []⟩ 0x5b = ⟨.Csi CsiParser.new, [], []⟩ := by
    decide
  have hacc : List.foldl ansiPushByte ⟨.Csi CsiParser.new, [], []⟩ ps =
      ⟨.Csi { state := .Params, params := ps, intermediates := [] }, [], []⟩ := by
    rw [foldl_ansiPushByte_params ps h [] [] CsiParser.new rfl]; rfl
  have hterm : ∀ fb, 0x40 ≤ fb → fb ≤ 0x7d →
      ansiPushByte ⟨.Csi { state := .Params, params := ps, intermediates := [] }, [], []⟩ fb =
        ⟨.Empty, csiDispatch fb ps, []⟩ := by
    intro fb hf1 hf2
    have hp := isCsiParam_eq_false_of_ge hf1
    have hi := isCsiIntermediate_eq_false_of_ge hf1
    have ht := isCsiTerminator_eq_true hf1 hf2
    simp [ansiPushByte, CsiParser.push, hp, hi, ht]
  have key : ∀ fb, 0x40 ≤ fb → fb ≤ 0x7d →
      ansiParse ((0x1b :: 0x5b :: ps) ++ [fb]) = csiDispatch fb ps := by
    intro fb hf1 hf2
    show (pushDataIfNonEmpty
      (List.foldl ansiPushByte ⟨.Empty, [], []⟩ ((0x1b :: 0x5b :: ps) ++ [fb]))).output = _
    have hinner : List.foldl ansiPushByte ⟨.Empty, [], []⟩ (0x1b :: 0x5b :: ps) =
        ⟨.Csi { state := .Params, params := ps, intermediates := [] }, [], []⟩ := by
      rw [List.foldl_cons, hesc, List.foldl_cons, hbracket, hacc]
    rw [List.foldl_append, hinner, List.foldl_cons, hterm fb hf1 hf2, List.foldl_nil]
    simp [pushDataIfNonEmpty]
  constructor
  · rw [key 0x68 (by decide) (by decide)]
    simp only [csiDispatch]
    norm_num
    split <;> rfl
  · rw [key 0x6c (by decide) (by decide)]
    simp only [csiDispatch]
    norm_num
    split <;> rfl

/-- C7 witness: the dispatch theorem applied at the parameter bytes `?25`. -/
theorem C7_mode_dispatch_witness :
    ansiParse (0x1b :: 0x5b :: [0x3f, 0x32, 0x35] ++ [0x68]) =
      [if [0x3f, 0x32, 0x35] = [0x3f, 0x31, 0x30, 0x34, 0x39] then .EnterAltScreen
       else .SetMode (modeFromParams [0x3f, 0x32, 0x35])] ∧
    ansiParse (0x1b :: 0x5b :: [0x3f, 0x32, 0x35] ++ [0x6c]) =
      [if [0x3f, 0x32, 0x35] = [0x3f, 0x31, 0x30, 0x34, 0x39] then .ExitAltScreen
       else .ResetMode (modeFromParams [0x3f, 0x32, 0x35])] :=
  C7_mode_dispatch [0x3f, 0x32, 0x35] (by decide)

/-! ### Claim C8 -/

/-- C8 counterexample: the claim says that after a malformed byte inside a CSI
sequence the parser keeps consuming bytes until a terminator, then emits one
`Invalid`, and the intervening bytes are not re-interpreted.  In the code the
`AnsiParser` emits `Invalid` and resets to `Empty` immediately when the CSI
sub-parser enters `Invalid`, so for `ESC [ 0x01 s m` the bytes `s m` after the
malformed `0x01` are re-interpreted as printable data. -/
theorem C8_counterexample :
    ansiParse [0x1b, 0x5b, 0x01, 0x73, 0x6d] = [.Invalid, .Data [0x73, 0x6d]] := by
  decide

/-- C8 (amended): when a byte drives the CSI sub-parser into the `Invalid`
state, the surrounding parser emits exactly one `Invalid` command immediately
(appended to the output built so far) and returns to the `Empty` state, so all
subsequent bytes are processed afresh (as printable data or new commands); the
CsiParser-level consume-until-terminator `Invalid` state is bypassed. -/
theorem C8_invalid_immediate (st : AnsiFoldState) (c : CsiParser) (b : Nat)
    (hinner : st.inner = .Csi c) (hinv : (c.push b).state = .Invalid) :
    ansiPushByte st b =
      { st with output := st.output ++ [.Invalid], inner := .Empty } := by
  simp [ansiPushByte, hinner, hinv]

/-- C8 witness: the immediate-invalid theorem applied to a fresh CSI state and
the malformed byte `0x01`. -/
theorem C8_invalid_immediate_witness :
    ansiPushByte ⟨.Csi CsiParser.new, [], []⟩ 0x01 =
      { inner := .Empty, output := [.Invalid], dataOutput := [] } :=
  C8_invalid_immediate ⟨.Csi CsiParser.new, [], []⟩ CsiParser.new 0x01 rfl (by decide)

/-! ## Section 2: format tracker (format_tracker.rs) -/

/-- `TerminalColor` from mod.rs (used by the tracker via `use super::...`;
`u8` payloads become `Nat`). -/
inductive TerminalColor where
  | Default
  | Faint
  | Italic
  | Underline
  | BlinkSlow
  | BlinkRapid
  | Reverse
  | Conceal
  | Reveal
  | NotItalic
  | NotUnderline
  | NormalIntensity
  | ForegroundBlack
  | ForegroundRed
  | ForegroundGreen
  | ForegroundYellow
  | ForegroundBlue
  | ForegroundMagenta
  | ForegroundCyan
  | ForegroundWhite
  | ForegroundBrightBlack
  | ForegroundBrightRed
  | ForegroundBrightGreen
  | ForegroundBrightYellow
  | ForegroundBrightBlue
  | ForegroundBrightMagenta
  | ForegroundBrightCyan
  | ForegroundBrightWhite
  | ForegroundRgb (r g b : Nat)
  | BackgroundBlack
  | BackgroundRed
  | BackgroundGreen
  | BackgroundYellow
  | BackgroundBlue
  | BackgroundMagenta
  | BackgroundCyan
  | BackgroundWhite
  | BackgroundBrightBlack
  | BackgroundBrightRed
  | BackgroundBrightGreen
  | BackgroundBrightYellow
  | BackgroundBrightBlue
  | BackgroundBrightMagenta
  | BackgroundBrightCyan
  | BackgroundBrightWhite
  | BackgroundTrueColor (r g b : Nat)
  | Foreground8Bit (n : Nat)
deriving Repr, DecidableEq

/-- `BlinkMode` from mod.rs. -/
inductive BlinkMode where
  | NoBlink
  | SlowBlink
  | RapidBlink
deriving Repr, DecidableEq, BEq

/-- `CursorPos` from mod.rs. -/
structure CursorPos where
  x : Nat
  y : Nat
deriving Repr, DecidableEq

/-- `CursorState`: position, blink mode, visibility and drawing attributes.
format_tracker.rs reads `fg_color`/`bg_color` from it (the older draft in
mod.rs has a single `color` field; the tracker sources are the authority for
the fields the tracker consumes, and only `pos` is consumed by the emulator
code modelled here). -/
structure CursorState where
  pos : CursorPos
  blink_mode : BlinkMode
  visible : Bool
  bold : Bool
  italic : Bool
  fg_color : TerminalColor
  bg_color : TerminalColor
deriving Repr, DecidableEq

/-- `FormatTag` from format_tracker.rs.  The `end` field is called `stop`
(`end` is a Lean keyword); `usizeMax` is the `usize::MAX` sentinel meaning
"to infinity". -/
structure FormatTag where
  start : Nat
  stop : Nat
  blink : Bool
  fg_color : TerminalColor
  bg_color : TerminalColor
  bold : Bool
  italic : Bool
deriving Repr, DecidableEq

/-- `Range<usize>` (half-open; the `end` field is called `stop`). -/
structure URange where
  start : Nat
  stop : Nat
deriving Repr, DecidableEq

/-- `ranges_overlap` from format_tracker.rs. -/
def rangesOverlap (a b : URange) : Bool :=
  if a.stop ≤ b.start then false
  else if b.stop ≤ a.start then false
  else true

/-- `range_fully_conatins` from format_tracker.rs (source spelling kept):
`a` fully contains `b`. -/
def rangeFullyConatins (a b : URange) : Bool :=
  a.start ≤ b.start && b.stop ≤ a.stop

/-- `range_starts_overlapping` from format_tracker.rs. -/
def rangeStartsOverlapping (a b : URange) : Bool :=
  b.start < a.start && b.stop < a.stop

/-- `range_ends_overlapping` from format_tracker.rs. -/
def rangeEndsOverlapping (a b : URange) : Bool :=
  rangeStartsOverlapping b a

/-- The interval of a tag as a `URange`. -/
def FormatTag.range (t : FormatTag) : URange :=
  ⟨t.start, t.stop⟩

/-- `adjust_existing_format_range` from format_tracker.rs.  Returns the
(possibly mutated) element together with `(should_delete, to_insert)`.  The
`panic!` branch of the source is unreachable for overlapping ranges (see
`adjust_branch_exhaustive` below) and is modelled as leaving the tag alone. -/
def adjustExistingFormatRange (t : FormatTag) (r : URange) :
    FormatTag × Bool × Option FormatTag :=
  if rangeFullyConatins r t.range then (t, true, none)
  else if rangeFullyConatins t.range r then
    let del := t.start == r.start
    let ins := if r.stop ≠ t.stop then some { t with start := r.stop, stop := t.stop }
               else none
    ({ t with stop := r.start }, del, ins)
  else if rangeStartsOverlapping r t.range then
    let t2 := { t with stop := r.start }
    (t2, t2.start == t2.stop, none)
  else if rangeEndsOverlapping r t.range then
    let t2 := { t with start := r.stop }
    (t2, t2.start == t2.stop, none)
  else (t, false, none)

/-- `adjust_existing_format_ranges` from format_tracker.rs: mutate every
overlapping tag in place, drop the ones marked for deletion (preserving the
order of the survivors), then append the split-off pieces at the end. -/
def adjustExistingFormatRanges (tags : List FormatTag) (r : URange) : List FormatTag :=
  let processed := tags.map fun t =>
    if rangesOverlap t.range r then adjustExistingFormatRange t r else (t, false, none)
  (processed.filter fun p => !p.2.1).map (fun p => p.1) ++
    processed.filterMap fun p => p.2.2

/-- Stable insertion into a list sorted by `start`: an element is placed after
all existing elements whose `start` is less than or equal to its own. -/
def insertByStart (a : FormatTag) : List FormatTag → List FormatTag
  | [] => [a]
  | b :: bs => if b.start ≤ a.start then b :: insertByStart a bs else a :: b :: bs

/-- Stable sort by `start`, modelling the (stable) Rust
`sort_by(|a, b| a.start.cmp(&b.start))`: fold the stable insertion over the
list from the left. -/
def sortByStart (l : List FormatTag) : List FormatTag :=
  l.foldl (fun acc a => insertByStart a acc) []

/-- `FormatTracker` from format_tracker.rs. -/
structure FormatTracker where
  color_info : List FormatTag
deriving Repr, DecidableEq

/-- The single default tag `[0, ∞)` used by `new` and `reset`. -/
def defaultTag : FormatTag :=
  { start := 0, stop := usizeMax, fg_color := .Default, bg_color := .Default,
    bold := false, italic := false, blink := false }

/-- `FormatTracker::new`. -/
def FormatTracker.new : FormatTracker :=
  ⟨[defaultTag]⟩

/-- `FormatTracker::reset`. -/
def FormatTracker.reset (_tr : FormatTracker) : FormatTracker :=
  ⟨[defaultTag]⟩

/-- `FormatTracker::push_range_adjustment` from format_tracker.rs. -/
def FormatTracker.push_range_adjustment (tr : FormatTracker) (r : URange) : FormatTracker :=
  let rangeLen := r.stop - r.start
  ⟨tr.color_info.map fun info =>
    if info.stop ≤ r.start then info
    else if r.start < info.start then
      { info with start := info.start + rangeLen,
                  stop := if info.stop ≠ usizeMax then info.stop + rangeLen else info.stop }
    else if info.stop ≠ usizeMax then { info with stop := info.stop + rangeLen }
    else info⟩

/-- `FormatTracker::push_range` from format_tracker.rs. -/
def FormatTracker.push_range (tr : FormatTracker) (cursor : CursorState) (r : URange) :
    FormatTracker :=
  ⟨sortByStart (adjustExistingFormatRanges tr.color_info r ++
    [{ start := r.start, stop := r.stop, fg_color := cursor.fg_color,
       bg_color := cursor.bg_color, bold := cursor.bold, italic := cursor.italic,
       blink := cursor.blink_mode != .NoBlink }])⟩

/-- The per-tag action of `FormatTracker::delete_range` from
format_tracker.rs; `none` means the tag is removed.  The `panic!` branch is
unreachable for overlapping ranges and is modelled as leaving the tag alone. -/
def deleteRangeTag (r : URange) (delSize : Nat) (t : FormatTag) : Option FormatTag :=
  if t.stop ≤ r.start then some t
  else if rangesOverlap r t.range then
    if rangeFullyConatins r t.range then none
    else if rangeStartsOverlapping r t.range then
      some { t with stop := if t.stop ≠ usizeMax then r.start else t.stop }
    else if rangeEndsOverlapping r t.range then
      some { t with start := r.start,
                    stop := if t.stop ≠ usizeMax then t.stop - delSize else t.stop }
    else if rangeFullyConatins t.range r then
      some { t with stop := if t.stop ≠ usizeMax then t.stop - delSize else t.stop }
    else some t
  else
    some { t with start := t.start - delSize,
                  stop := if t.stop ≠ usizeMax then t.stop - delSize else t.stop }

/-- `FormatTracker::delete_range` from format_tracker.rs. -/
def FormatTracker.delete_range (tr : FormatTracker) (r : URange) : FormatTracker :=
  ⟨tr.color_info.filterMap (deleteRangeTag r (r.stop - r.start))⟩

/-- `FormatTracker::tags`. -/
def FormatTracker.tags (tr : FormatTracker) : List FormatTag :=
  tr.color_info

/-- The four tracker operations named by the claim. -/
inductive TrackerOp where
  | push_range (cursor : CursorState) (r : URange)
  | push_range_adjustment (r : URange)
  | delete_range (r : URange)
  | reset
deriving Repr, DecidableEq

/-- Apply one tracker operation. -/
def applyTrackerOp (tr : FormatTracker) : TrackerOp → FormatTracker
  | .push_range cursor r => tr.push_range cursor r
  | .push_range_adjustment r => tr.push_range_adjustment r
  | .delete_range r => tr.delete_range r
  | .reset => tr.reset

/-- Apply a sequence of tracker operations. -/
def applyTrackerOps (tr : FormatTracker) (ops : List TrackerOp) : FormatTracker :=
  ops.foldl applyTrackerOp tr

/-- A default cursor state (as built by `TerminalEmulator::new`). -/
def defaultCursorState : CursorState :=
  { pos := ⟨0, 0⟩, blink_mode := .NoBlink, visible := false, bold := false,
    italic := false, fg_color := .Default, bg_color := .Default }

/-! ### The claimed invariant -/

/-- Position `n` lies in tag `t`, reading `stop = usizeMax` as infinity. -/
def tagMem (t : FormatTag) (n : Nat) : Prop :=
  t.start ≤ n ∧ (n < t.stop ∨ t.stop = usizeMax)

/-- The tag list is sorted by `start`. -/
def SortedByStart (l : List FormatTag) : Prop :=
  l.Pairwise (fun a b => a.start ≤ b.start)

/-- The tags are pairwise non-overlapping (with `∞` semantics for the sentinel). -/
def TagsDisjoint (l : List FormatTag) : Prop :=
  l.Pairwise (fun a b => ∀ n, ¬(tagMem a n ∧ tagMem b n))

/-- The tags cover every position of `[0, ∞)`. -/
def TagsCover (l : List FormatTag) : Prop :=
  ∀ n, ∃ t ∈ l, tagMem t n

/-- Exactly one tag has `end = ∞`, and it is the last tag. -/
def InfLast (l : List FormatTag) : Prop :=
  (∃ t, l.getLast? = some t ∧ t.stop = usizeMax) ∧
    ∀ t ∈ l.dropLast, t.stop ≠ usizeMax

/-- The invariant asserted by the claim. -/
def trackerInvariant (l : List FormatTag) : Prop :=
  SortedByStart l ∧ TagsDisjoint l ∧ TagsCover l ∧ InfLast l

/-- The per-tag endpoint transformation performed by `push_range_adjustment`
([s, e) with `L = e - s`), in closed form. -/
def adjShift (s L : Nat) (t : FormatTag) : FormatTag :=
  { t with
    start := if s < t.start ∧ s < t.stop then t.start + L else t.start,
    stop := if t.stop ≤ s ∨ t.stop = usizeMax then t.stop else t.stop + L }

/-- `push_range_adjustment` acts tag-wise as `adjShift`. -/
theorem push_range_adjustment_eq_map (tags : List FormatTag) (s e : Nat) :
    ((FormatTracker.mk tags).push_range_adjustment ⟨s, e⟩).color_info =
      tags.map (adjShift s (e - s)) := by
  show (tags.map _) = _
  refine List.map_congr_left fun t _ => ?_
  obtain ⟨ts, tp, tb, tf, tg, tbo, ti⟩ := t
  simp only [adjShift]
  split_ifs <;> simp_all [FormatTag.mk.injEq] <;> omega

/-! ### Claim C5 -/

/-- C5 counterexample: the claim says every tag formerly ending at `p ≥ s`
ends at `p + (e - s)` after `push_range_adjustment([s, e))`.  For the tag
`[0, 5)` and the adjustment `[5, 7)` we have `p = 5 ≥ s = 5`, but the code
skips tags with `end ≤ s`, so the tag still ends at `5`, not `7`. -/
theorem C5_counterexample :
    ((FormatTracker.mk [{ defaultTag with start := 0, stop := 5 },
        { defaultTag with start := 5 }]).push_range_adjustment ⟨5, 7⟩).color_info =
      [{ defaultTag with start := 0, stop := 5 }, { defaultTag with start := 5 }] ∧
    ({ defaultTag with start := 0, stop := 5 } : FormatTag).stop = 5 ∧ (5 : Nat) ≥ 5 ∧
    (5 : Nat) ≠ 5 + (7 - 5) := by
  refine ⟨by decide, rfl, by decide, by decide⟩

/-- C5 (amended): after `push_range_adjustment([s, e))` with `s ≤ e` and
`L = e - s`, provided none of the performed `usize` additions overflows
(every tag's shifted endpoints stay at or below `usize::MAX`, the sentinel
end exempt), every tag is transformed as follows: a tag whose end is
strictly greater than `s` has its end shifted to `end + L`, with the `∞`
sentinel preserved literally; a tag ending at or before `s` is untouched
entirely.  The start of a tag shifts right by `L` exactly when it is
strictly greater than `s` (and the tag's end is strictly greater than `s`);
all other fields are unchanged.  The overflow bound delimits the inputs on
which the `Nat` model coincides with the source's `usize` arithmetic
(`info.start += range_len` / `info.end += range_len`). -/
theorem C5_adjustment_shift (tags : List FormatTag) (s e : Nat) (_hse : s ≤ e)
    (_hbound : ∀ t ∈ tags, t.start + (e - s) ≤ usizeMax ∧
      (t.stop ≠ usizeMax → t.stop + (e - s) ≤ usizeMax)) :
    ((FormatTracker.mk tags).push_range_adjustment ⟨s, e⟩).color_info =
      tags.map fun t =>
        { t with
          start := if s < t.start ∧ s < t.stop then t.start + (e - s) else t.start,
          stop := if t.stop ≤ s ∨ t.stop = usizeMax then t.stop else t.stop + (e - s) } :=
  push_range_adjustment_eq_map tags s e

/-- C5 witness: the endpoint-map theorem applied to the tag vector
`[[0, 5), [5, ∞)]` and the adjustment range `[2, 4)`. -/
theorem C5_adjustment_shift_witness :
    ((2 : Nat) ≤ 4 ∧
      ∀ t ∈ [{ defaultTag with stop := 5 }, { defaultTag with start := 5 }],
        t.start + (4 - 2) ≤ usizeMax ∧
          (t.stop ≠ usizeMax → t.stop + (4 - 2) ≤ usizeMax)) ∧
    ((FormatTracker.mk
        [{ defaultTag with stop := 5 }, { defaultTag with start := 5 }]).push_range_adjustment
          ⟨2, 4⟩).color_info =
      [{ defaultTag with stop := 5 }, { defaultTag with start := 5 }].map fun t =>
        { t with
          start := if 2 < t.start ∧ 2 < t.stop then t.start + (4 - 2) else t.start,
          stop := if t.stop ≤ 2 ∨ t.stop = usizeMax then t.stop else t.stop + (4 - 2) } :=
  ⟨⟨by decide, by decide⟩,
    C5_adjustment_shift [{ defaultTag with stop := 5 }, { defaultTag with start := 5 }]
      2 4 (by decide) (by decide)⟩

/-! ### Claim C1: counterexample -/

/-- C1 counterexample: the claim asserts the invariant for every operation
with a well-formed range (`start ≤ end`).  Pushing the empty range `[0, 0)`
(well-formed: `0 ≤ 0`) onto a fresh tracker yields the tag vector
`[[0, ∞), [0, 0)]` — the empty range does not overlap the default tag, so the
new zero-width tag is appended and the stable sort keeps it after the
equal-start sentinel tag — and then the `∞`-ended tag is not last, violating
the invariant. -/
theorem C1_counterexample :
    (0 : Nat) ≤ 0 ∧
    (FormatTracker.new.push_range defaultCursorState ⟨0, 0⟩).color_info =
      [defaultTag, { defaultTag with stop := 0 }] ∧
    ¬ trackerInvariant (FormatTracker.new.push_range defaultCursorState ⟨0, 0⟩).color_info := by
  refine ⟨le_refl 0, by decide, ?_⟩
  intro h
  obtain ⟨-, -, -, ⟨t, hlast, hstop⟩, -⟩ := h
  rw [show (FormatTracker.new.push_range defaultCursorState ⟨0, 0⟩).color_info =
    [defaultTag, { defaultTag with stop := 0 }] from by decide] at hlast
  rw [show ([defaultTag, { defaultTag with stop := 0 }].getLast? ) =
    some { defaultTag with stop := 0 } from by decide] at hlast
  injection hlast with h2
  rw [← h2] at hstop
  exact absurd hstop (by decide)

/-! ### Claim C1: structural well-formedness of tag vectors -/

/-- Position `n` lies in tag `t` read as a plain half-open interval. -/
def plainMem (t : FormatTag) (n : Nat) : Prop :=
  t.start ≤ n ∧ n < t.stop

/-- Structural well-formedness of a tag vector: the tags are non-empty
adjacent intervals starting at 0 whose last endpoint is the `usizeMax`
sentinel, and every endpoint is at most the sentinel. -/
structure TagsWf (l : List FormatTag) : Prop where
  ne : l ≠ []
  headStart : ∀ t, l.head? = some t → t.start = 0
  chain : l.Chain' (fun a b => a.stop = b.start)
  lastStop : ∀ t, l.getLast? = some t → t.stop = usizeMax
  pos : ∀ t ∈ l, t.start < t.stop
  le : ∀ t ∈ l, t.stop ≤ usizeMax

theorem chain_head_bound {a : FormatTag} :
    ∀ {rest : List FormatTag}, (a :: rest).Chain' (fun x y => x.stop = y.start) →
      (∀ t ∈ a :: rest, t.start ≤ t.stop) → ∀ b ∈ rest, a.stop ≤ b.start := by
  intro rest
  induction rest generalizing a with
  | nil => intro _ _ b hb; cases hb
  | cons c rest ih =>
    intro hc hpos b hb
    have hac : a.stop = c.start := (List.chain'_cons.mp hc).1
    rcases List.mem_cons.mp hb with rfl | hb
    · exact le_of_eq hac
    · have := ih (List.chain'_cons.mp hc).2
        (fun t ht => hpos t (List.mem_cons_of_mem _ ht)) b hb
      have hcs : c.start ≤ c.stop := hpos c (by simp)
      omega

theorem chain_pairwise_sep :
    ∀ {l : List FormatTag}, l.Chain' (fun x y => x.stop = y.start) →
      (∀ t ∈ l, t.start ≤ t.stop) → l.Pairwise (fun a b => a.stop ≤ b.start) := by
  intro l
  induction l with
  | nil => intro _ _; exact List.Pairwise.nil
  | cons a rest ih =>
    intro hc hpos
    refine List.pairwise_cons.mpr ⟨chain_head_bound hc hpos, ?_⟩
    exact ih (List.chain'_cons'.mp hc).2 (fun t ht => hpos t (List.mem_cons_of_mem _ ht))

theorem chain_covers :
    ∀ (l : List FormatTag) (base : Nat), l ≠ [] →
      (∀ t, l.head? = some t → t.start = base) →
      l.Chain' (fun x y => x.stop = y.start) →
      (∀ t, l.getLast? = some t → t.stop = usizeMax) →
      ∀ n, base ≤ n → n < usizeMax → ∃ t ∈ l, plainMem t n := by
  intro l
  induction l with
  | nil => intro base h; exact absurd rfl h
  | cons a rest ih =>
    intro base _ hhead hchain hlast n hbn hnM
    have ha : a.start = base := hhead a rfl
    match rest, hchain with
    | [], _ =>
      refine ⟨a, by simp, by rw [ha]; exact hbn, ?_⟩
      rw [hlast a rfl]; exact hnM
    | b :: rest, hchain =>
      by_cases hn : n < a.stop
      · exact ⟨a, by simp, by rw [ha]; exact hbn, hn⟩
      · have hab : a.stop = b.start := (List.chain'_cons.mp hchain).1
        have hrest := ih b.start (by simp)
          (fun t ht => by simp at ht; rw [ht])
          (List.chain'_cons.mp hchain).2
          (fun t ht => hlast t (by rw [List.getLast?_cons_cons]; exact ht))
          n (by omega) hnM
        obtain ⟨t, ht, hmem⟩ := hrest
        exact ⟨t, List.mem_cons_of_mem _ ht, hmem⟩

/-- The chain-recovery lemma: a sorted, pairwise-disjoint list of non-empty
tags bounded by the sentinel that covers `[base, usizeMax)` and lies at or
after `base` is an adjacent chain from `base` to the sentinel. -/
theorem tagsWf_of_sorted :
    ∀ (l : List FormatTag) (base : Nat),
      l.Pairwise (fun a b => a.start ≤ b.start) →
      l.Pairwise (fun a b => ∀ n, ¬(plainMem a n ∧ plainMem b n)) →
      (∀ t ∈ l, t.start < t.stop) → (∀ t ∈ l, t.stop ≤ usizeMax) →
      (∀ t ∈ l, base ≤ t.start) →
      (∀ n, base ≤ n → n < usizeMax → ∃ t ∈ l, plainMem t n) →
      base < usizeMax →
      l ≠ [] ∧ (∀ t, l.head? = some t → t.start = base) ∧
        l.Chain' (fun a b => a.stop = b.start) ∧
        (∀ t, l.getLast? = some t → t.stop = usizeMax) := by
  intro l
  induction l with
  | nil =>
    intro base _ _ _ _ _ hcov hbm
    obtain ⟨t, ht, -⟩ := hcov base le_rfl hbm
    cases ht
  | cons a rest ih =>
    intro base hsort hdisj hpos hle hbase hcov hbm
    -- the head starts exactly at `base`
    have hastart : a.start = base := by
      obtain ⟨t, ht, htm⟩ := hcov base le_rfl hbm
      have hts : t.start = base := le_antisymm (by
        have := htm.1; omega) (hbase t ht)
      rcases List.mem_cons.mp ht with rfl | htr
      · exact hts
      · have h1 := (List.pairwise_cons.mp hsort).1 t htr
        have h2 := hbase a (by simp)
        omega
    -- every tag of the tail is at or after `a.stop`
    have htail_base : ∀ t ∈ rest, a.stop ≤ t.start := by
      intro t ht
      by_contra hlt
      push_neg at hlt
      have h1 := (List.pairwise_cons.mp hsort).1 t ht
      have h2 := (List.pairwise_cons.mp hdisj).1 t ht
      refine h2 t.start ⟨⟨h1, hlt⟩, ⟨le_rfl, hpos t (List.mem_cons_of_mem _ ht)⟩⟩
    match rest with
    | [] =>
      refine ⟨by simp, fun t ht => by simp at ht; subst ht; exact hastart,
        List.chain'_singleton a, fun t ht => ?_⟩
      simp at ht; subst ht
      by_contra hne
      have hlt : a.stop < usizeMax := lt_of_le_of_ne (hle a (by simp)) hne
      have hba : base ≤ a.stop := by
        have := hpos a (by simp); omega
      obtain ⟨t, ht, htm⟩ := hcov a.stop hba hlt
      rcases List.mem_cons.mp ht with rfl | htr
      · exact absurd htm.2 (by omega)
      · cases htr
    | b :: rest2 =>
      have hstop_lt : a.stop < usizeMax := by
        have h1 := htail_base b (by simp)
        have h2 := hpos b (by simp [List.mem_cons])
        have h3 := hle b (by simp [List.mem_cons])
        omega
      have hcov2 : ∀ n, a.stop ≤ n → n < usizeMax → ∃ t ∈ b :: rest2, plainMem t n := by
        intro n hn hnM
        have hap := hpos a (by simp)
        obtain ⟨t, ht, htm⟩ := hcov n (by omega) hnM
        rcases List.mem_cons.mp ht with rfl | htr
        · exact absurd htm.2 (by omega)
        · exact ⟨t, htr, htm⟩
      obtain ⟨-, hh, hch, hl⟩ := ih a.stop (List.pairwise_cons.mp hsort).2
        (List.pairwise_cons.mp hdisj).2
        (fun t ht => hpos t (List.mem_cons_of_mem _ ht))
        (fun t ht => hle t (List.mem_cons_of_mem _ ht))
        htail_base hcov2 hstop_lt
      refine ⟨by simp, fun t ht => by simp at ht; subst ht; exact hastart,
        ?_, fun t ht => hl t (by rwa [List.getLast?_cons_cons] at ht)⟩
      exact List.chain'_cons.mpr ⟨(hh b rfl).symm, hch⟩

/-! ### Stable sort: permutation and sortedness -/

theorem insertByStart_perm (a : FormatTag) : ∀ l, (insertByStart a l).Perm (a :: l)
  | [] => List.Perm.refl _
  | b :: bs => by
    unfold insertByStart
    split
    · exact (List.Perm.cons b (insertByStart_perm a bs)).trans (List.Perm.swap a b bs)
    · exact List.Perm.refl _

theorem mem_insertByStart {t a : FormatTag} {l : List FormatTag}
    (h : t ∈ insertByStart a l) : t = a ∨ t ∈ l := by
  have := (insertByStart_perm a l).mem_iff.mp h
  simpa using this

theorem insertByStart_sorted (a : FormatTag) :
    ∀ l, l.Pairwise (fun x y => x.start ≤ y.start) →
      (insertByStart a l).Pairwise (fun x y => x.start ≤ y.start)
  | [], _ => List.pairwise_singleton _ _
  | b :: bs, h => by
    unfold insertByStart
    obtain ⟨hb, hbs⟩ := List.pairwise_cons.mp h
    split
    · refine List.pairwise_cons.mpr ⟨?_, insertByStart_sorted a bs hbs⟩
      intro c hc
      rcases mem_insertByStart hc with rfl | hcb
      · assumption
      · exact hb c hcb
    · rename_i hba
      push_neg at hba
      refine List.pairwise_cons.mpr ⟨?_, h⟩
      intro c hc
      rcases List.mem_cons.mp hc with rfl | hcb
      · omega
      · have := hb c hcb; omega

theorem foldl_insertByStart_perm (l : List FormatTag) :
    ∀ acc, (l.foldl (fun acc a => insertByStart a acc) acc).Perm (acc ++ l) := by
  induction l with
  | nil => intro acc; simp
  | cons a as ih =>
    intro acc
    rw [List.foldl_cons]
    refine (ih (insertByStart a acc)).trans ?_
    refine ((insertByStart_perm a acc).append_right as).trans ?_
    exact List.perm_middle.symm

theorem sortByStart_perm (l : List FormatTag) : (sortByStart l).Perm l := by
  simpa using foldl_insertByStart_perm l []

theorem foldl_insertByStart_sorted (l : List FormatTag) :
    ∀ acc, acc.Pairwise (fun x y => x.start ≤ y.start) →
      (l.foldl (fun acc a => insertByStart a acc) acc).Pairwise
        (fun x y => x.start ≤ y.start) := by
  induction l with
  | nil => intro acc h; simpa using h
  | cons a as ih =>
    intro acc h
    rw [List.foldl_cons]
    exact ih _ (insertByStart_sorted a acc h)

theorem sortByStart_sorted (l : List FormatTag) :
    (sortByStart l).Pairwise (fun x y => x.start ≤ y.start) :=
  foldl_insertByStart_sorted l [] List.Pairwise.nil

/-! ### From structural well-formedness to the claimed invariant -/

theorem pairwise_and_mem {P : FormatTag → Prop} {R : FormatTag → FormatTag → Prop} :
    ∀ {l : List FormatTag}, (∀ t ∈ l, P t) → l.Pairwise R →
      l.Pairwise (fun a b => R a b ∧ P a ∧ P b) := by
  intro l
  induction l with
  | nil => intro _ _; exact List.Pairwise.nil
  | cons a rest ih =>
    intro hP h
    obtain ⟨h1, h2⟩ := List.pairwise_cons.mp h
    refine List.pairwise_cons.mpr ⟨?_, ih (fun t ht => hP t (List.mem_cons_of_mem _ ht)) h2⟩
    intro b hb
    exact ⟨h1 b hb, hP a (by simp), hP b (List.mem_cons_of_mem _ hb)⟩

theorem wf_pairwise_sep {l : List FormatTag} (h : TagsWf l) :
    l.Pairwise (fun a b => a.stop ≤ b.start) :=
  chain_pairwise_sep h.chain (fun t ht => le_of_lt (h.pos t ht))

theorem wf_dropLast_stop_lt :
    ∀ {l : List FormatTag}, l.Chain' (fun a b => a.stop = b.start) →
      (∀ t ∈ l, t.start < t.stop) → (∀ t ∈ l, t.stop ≤ usizeMax) →
      ∀ t ∈ l.dropLast, t.stop < usizeMax := by
  intro l
  induction l with
  | nil => intro _ _ _ t ht; cases ht
  | cons a rest ih =>
    intro hchain hpos hle t ht
    match rest, ht with
    | b :: rest2, ht =>
      rw [show (a :: b :: rest2).dropLast = a :: (b :: rest2).dropLast from rfl] at ht
      rcases List.mem_cons.mp ht with rfl | ht2
      · have hab : t.stop = b.start := (List.chain'_cons.mp hchain).1
        have := hpos b (by simp)
        have := hle b (by simp)
        omega
      · exact ih (List.chain'_cons.mp hchain).2
          (fun u hu => hpos u (List.mem_cons_of_mem _ hu))
          (fun u hu => hle u (List.mem_cons_of_mem _ hu)) t ht2

theorem mem_of_getLast?_eq {l : List FormatTag} {t : FormatTag}
    (h : l.getLast? = some t) : t ∈ l := by
  obtain ⟨hne, heq⟩ := List.mem_getLast?_eq_getLast (Option.mem_def.mpr h)
  rw [heq]
  exact List.getLast_mem hne

/-- The claimed invariant follows from structural well-formedness. -/
theorem trackerInvariant_of_wf {l : List FormatTag} (h : TagsWf l) :
    trackerInvariant l := by
  have hsep := wf_pairwise_sep h
  have hrich := pairwise_and_mem (P := fun t => t.start < t.stop ∧ t.stop ≤ usizeMax)
    (fun t ht => ⟨h.pos t ht, h.le t ht⟩) hsep
  obtain ⟨tl, htl⟩ : ∃ tl, l.getLast? = some tl := by
    cases hl : l.getLast? with
    | none => exact absurd (List.getLast?_eq_none_iff.mp hl) h.ne
    | some t => exact ⟨t, rfl⟩
  have htlM := h.lastStop tl htl
  have htlmem : tl ∈ l := mem_of_getLast?_eq htl
  refine ⟨?_, ?_, ?_, ⟨tl, htl, htlM⟩, ?_⟩
  · exact hrich.imp (fun hab => by omega)
  · refine hrich.imp (fun hab => ?_)
    intro n hn
    obtain ⟨⟨hna1, hna2⟩, hnb1, hnb2⟩ := hn
    obtain ⟨hsep1, ⟨hpa, hla⟩, hpb, hlb⟩ := hab
    rcases hna2 with h1 | h1 <;> rcases hnb2 with h2 | h2 <;> omega
  · intro n
    by_cases hn : n < usizeMax
    · obtain ⟨t, ht, hm⟩ := chain_covers l 0 h.ne h.headStart h.chain h.lastStop n
        (Nat.zero_le n) hn
      exact ⟨t, ht, hm.1, Or.inl hm.2⟩
    · refine ⟨tl, htlmem, ?_, Or.inr htlM⟩
      have := h.pos tl htlmem
      omega
  · intro t ht
    have := wf_dropLast_stop_lt h.chain h.pos h.le t ht
    omega

theorem usizeMax_pos : 0 < usizeMax := by
  norm_num [usizeMax]

theorem sorted_of_sep {l : List FormatTag}
    (hsep : l.Pairwise (fun u v => u.stop ≤ v.start))
    (hpos : ∀ t ∈ l, t.start < t.stop) :
    l.Pairwise (fun u v => u.start ≤ v.start) :=
  (pairwise_and_mem (P := fun t => t.start < t.stop) hpos hsep).imp (fun hx => by omega)

theorem disjoint_of_sep {l : List FormatTag}
    (hsep : l.Pairwise (fun u v => u.stop ≤ v.start)) :
    l.Pairwise (fun u v => ∀ n, ¬(plainMem u n ∧ plainMem v n)) := by
  refine hsep.imp (fun hx => ?_)
  intro n hn
  obtain ⟨⟨h1, h2⟩, h3, h4⟩ := hn
  omega

/-- Single entry point: separation, positivity, boundedness and coverage give
structural well-formedness. -/
theorem tagsWf_mk {l : List FormatTag}
    (hsep : l.Pairwise (fun u v => u.stop ≤ v.start))
    (hpos : ∀ t ∈ l, t.start < t.stop)
    (hle : ∀ t ∈ l, t.stop ≤ usizeMax)
    (hcov : ∀ n, n < usizeMax → ∃ t ∈ l, plainMem t n) :
    TagsWf l := by
  obtain ⟨hne, hhead, hchain, hlast⟩ := tagsWf_of_sorted l 0 (sorted_of_sep hsep hpos)
    (disjoint_of_sep hsep) hpos hle (fun t _ => Nat.zero_le _)
    (fun n _ h2 => hcov n h2) usizeMax_pos
  exact ⟨hne, hhead, hchain, hlast, hpos, hle⟩

/-- Separation follows from sortedness plus pairwise disjointness of non-empty
tags (used to re-establish separation after the stable sort). -/
theorem sep_of_sorted_disjoint {l : List FormatTag}
    (hs : l.Pairwise (fun u v => u.start ≤ v.start))
    (hd : l.Pairwise (fun u v => ∀ n, ¬(plainMem u n ∧ plainMem v n)))
    (hpos : ∀ t ∈ l, t.start < t.stop) :
    l.Pairwise (fun u v => u.stop ≤ v.start) := by
  have hx := pairwise_and_mem (P := fun t => t.start < t.stop) hpos (hs.and hd)
  refine hx.imp (fun hab => ?_)
  obtain ⟨⟨hst, hdis⟩, hpa, hpb⟩ := hab
  by_contra hlt
  push_neg at hlt
  exact hdis (by rename_i u v; exact v.start) ⟨⟨by omega, by omega⟩, ⟨le_rfl, by omega⟩⟩

/-! ### Preservation: `push_range_adjustment` -/

theorem tagsWf_push_range_adjustment {l : List FormatTag} (h : TagsWf l) {s e : Nat}
    (hse : s < e)
    (hbound : ∀ t ∈ l, t.start + (e - s) < usizeMax ∧
      (t.stop ≠ usizeMax → t.stop + (e - s) < usizeMax)) :
    TagsWf ((FormatTracker.mk l).push_range_adjustment ⟨s, e⟩).color_info := by
  rw [push_range_adjustment_eq_map]
  set L := e - s with hLdef
  have hL1 : 1 ≤ L := by omega
  have hrich := pairwise_and_mem
    (P := fun t => t.start < t.stop ∧ t.stop ≤ usizeMax ∧ t.start + L < usizeMax ∧
      (t.stop ≠ usizeMax → t.stop + L < usizeMax))
    (fun t ht => ⟨h.pos t ht, h.le t ht, (hbound t ht).1, fun hne => (hbound t ht).2 hne⟩)
    (wf_pairwise_sep h)
  have hsep : (l.map (adjShift s L)).Pairwise (fun u v => u.stop ≤ v.start) := by
    refine List.Pairwise.map _ (fun a b hab => ?_) hrich
    obtain ⟨hst, ⟨hpa, hla, hba1, hba2⟩, hpb, hlb, hbb1, hbb2⟩ := hab
    simp only [adjShift]
    split_ifs <;> omega
  have hpos : ∀ u ∈ l.map (adjShift s L), u.start < u.stop := by
    intro u hu
    obtain ⟨t, ht, rfl⟩ := List.mem_map.mp hu
    have hp := h.pos t ht
    have hl := h.le t ht
    have hb := hbound t ht
    simp only [adjShift]
    split_ifs <;> omega
  have hle : ∀ u ∈ l.map (adjShift s L), u.stop ≤ usizeMax := by
    intro u hu
    obtain ⟨t, ht, rfl⟩ := List.mem_map.mp hu
    have hl := h.le t ht
    have hb := hbound t ht
    simp only [adjShift]
    split_ifs <;> omega
  refine tagsWf_mk hsep hpos hle ?_
  intro n hn
  by_cases hns : n ≤ s
  · obtain ⟨t, ht, hm⟩ := chain_covers l 0 h.ne h.headStart h.chain h.lastStop n
      (Nat.zero_le _) hn
    refine ⟨adjShift s L t, List.mem_map_of_mem _ ht, ?_⟩
    obtain ⟨hm1, hm2⟩ := hm
    constructor <;> simp only [adjShift] <;> split_ifs <;> omega
  · push_neg at hns
    have hsM : s < usizeMax := by omega
    by_cases hnsL : n ≤ s + L
    · obtain ⟨t, ht, hm⟩ := chain_covers l 0 h.ne h.headStart h.chain h.lastStop s
        (Nat.zero_le _) hsM
      refine ⟨adjShift s L t, List.mem_map_of_mem _ ht, ?_⟩
      obtain ⟨hm1, hm2⟩ := hm
      have hl := h.le t ht
      constructor <;> simp only [adjShift] <;> split_ifs <;> omega
    · push_neg at hnsL
      have hnL : n - L < usizeMax := by omega
      obtain ⟨t, ht, hm⟩ := chain_covers l 0 h.ne h.headStart h.chain h.lastStop (n - L)
        (Nat.zero_le _) hnL
      refine ⟨adjShift s L t, List.mem_map_of_mem _ ht, ?_⟩
      obtain ⟨hm1, hm2⟩ := hm
      have hl := h.le t ht
      constructor <;> simp only [adjShift] <;> split_ifs <;> omega

/-! ### Preservation: `delete_range` -/

theorem rangesOverlap_iff {a b : URange} :
    rangesOverlap a b = true ↔ b.start < a.stop ∧ a.start < b.stop := by
  unfold rangesOverlap
  split_ifs <;> simp <;> omega

theorem rangeFullyConatins_iff {a b : URange} :
    rangeFullyConatins a b = true ↔ a.start ≤ b.start ∧ b.stop ≤ a.stop := by
  simp [rangeFullyConatins]

theorem rangeStartsOverlapping_iff {a b : URange} :
    rangeStartsOverlapping a b = true ↔ b.start < a.start ∧ b.stop < a.stop := by
  simp [rangeStartsOverlapping]

theorem rangeEndsOverlapping_iff {a b : URange} :
    rangeEndsOverlapping a b = true ↔ a.start < b.start ∧ a.stop < b.stop := by
  simp [rangeEndsOverlapping, rangeStartsOverlapping]

/-- The endpoint collapse map of `delete_range([s, e))`. -/
def delMap (s e x : Nat) : Nat :=
  if x ≤ s then x else if x ≤ e then s else x - (e - s)

theorem delMap_mono {s e x y : Nat} (hxy : x ≤ y) : delMap s e x ≤ delMap s e y := by
  unfold delMap
  split_ifs <;> omega

theorem delMap_le_self {s e x : Nat} : delMap s e x ≤ x := by
  unfold delMap
  split_ifs <;> omega

/-- On well-formed tags (for a deletion range with `s < e < usizeMax`),
`delete_range` acts as the endpoint collapse map, removing tags whose image is
empty and preserving the `∞` sentinel. -/
theorem deleteRangeTag_eq {s e : Nat} (t : FormatTag) (hpos : t.start < t.stop)
    (hle : t.stop ≤ usizeMax) (hse : s < e) (heM : e < usizeMax) :
    deleteRangeTag ⟨s, e⟩ (e - s) t =
      (if delMap s e t.start < (if t.stop = usizeMax then usizeMax else delMap s e t.stop)
       then some { t with start := delMap s e t.start,
                          stop := if t.stop = usizeMax then usizeMax else delMap s e t.stop }
       else none) := by
  obtain ⟨ts, tp, tb, tf, tg, tbo, ti⟩ := t
  simp only [deleteRangeTag, FormatTag.range, delMap] at *
  simp only [rangesOverlap_iff, rangeFullyConatins_iff, rangeStartsOverlapping_iff,
    rangeEndsOverlapping_iff]
  split_ifs <;>
    first
    | rfl
    | omega
    | (simp only [Option.some.injEq, FormatTag.mk.injEq, and_true, true_and,
        eq_self_iff_true, reduceCtorEq]
       omega)

theorem tagsWf_delete_range {l : List FormatTag} (h : TagsWf l) {s e : Nat}
    (hse : s < e) (heM : e < usizeMax) :
    TagsWf ((FormatTracker.mk l).delete_range ⟨s, e⟩).color_info := by
  show TagsWf (l.filterMap (deleteRangeTag ⟨s, e⟩ (e - s)))
  have hchar : ∀ t ∈ l, deleteRangeTag ⟨s, e⟩ (e - s) t =
      (if delMap s e t.start < (if t.stop = usizeMax then usizeMax else delMap s e t.stop)
       then some { t with start := delMap s e t.start,
                          stop := if t.stop = usizeMax then usizeMax else delMap s e t.stop }
       else none) := fun t ht => deleteRangeTag_eq t (h.pos t ht) (h.le t ht) hse heM
  have hmemdel : ∀ t ∈ l, ∀ u, deleteRangeTag ⟨s, e⟩ (e - s) t = some u →
      u.start = delMap s e t.start ∧
        u.stop = (if t.stop = usizeMax then usizeMax else delMap s e t.stop) ∧
        u.start < u.stop := by
    intro t ht u hu
    rw [hchar t ht] at hu
    by_cases hc : delMap s e t.start <
        (if t.stop = usizeMax then usizeMax else delMap s e t.stop)
    · rw [if_pos hc] at hu
      injection hu with hu
      subst hu
      exact ⟨rfl, rfl, hc⟩
    · rw [if_neg hc] at hu
      cases hu
  have hrich := pairwise_and_mem
    (P := fun t => t.start < t.stop ∧ t.stop ≤ usizeMax ∧ t ∈ l)
    (fun t ht => ⟨h.pos t ht, h.le t ht, ht⟩) (wf_pairwise_sep h)
  have hsep : (l.filterMap (deleteRangeTag ⟨s, e⟩ (e - s))).Pairwise
      (fun u v => u.stop ≤ v.start) := by
    refine List.Pairwise.filterMap _ (fun a b hab => ?_) hrich
    obtain ⟨hst, ⟨hpa, hla, hma⟩, hpb, hlb, hmb⟩ := hab
    intro u hu v hv
    obtain ⟨hu1, hu2, hu3⟩ := hmemdel a hma u hu
    obtain ⟨hv1, hv2, hv3⟩ := hmemdel b hmb v hv
    have hmono := delMap_mono (s := s) (e := e) hst
    by_cases haM : a.stop = usizeMax
    · exfalso
      have := delMap_le_self (s := s) (e := e) (x := b.start)
      omega
    · simp only [haM, if_false] at hu2
      omega
  have hpos : ∀ u ∈ l.filterMap (deleteRangeTag ⟨s, e⟩ (e - s)), u.start < u.stop := by
    intro u hu
    obtain ⟨t, ht, htu⟩ := List.mem_filterMap.mp hu
    exact (hmemdel t ht u htu).2.2
  have hle : ∀ u ∈ l.filterMap (deleteRangeTag ⟨s, e⟩ (e - s)), u.stop ≤ usizeMax := by
    intro u hu
    obtain ⟨t, ht, htu⟩ := List.mem_filterMap.mp hu
    obtain ⟨-, hu2, -⟩ := hmemdel t ht u htu
    have := h.le t ht
    have := delMap_le_self (s := s) (e := e) (x := t.stop)
    split_ifs at hu2 <;> omega
  refine tagsWf_mk hsep hpos hle ?_
  -- coverage of the collapsed line
  obtain ⟨tl, htl⟩ : ∃ tl, l.getLast? = some tl := by
    cases hl : l.getLast? with
    | none => exact absurd (List.getLast?_eq_none_iff.mp hl) h.ne
    | some t => exact ⟨t, rfl⟩
  have htlM := h.lastStop tl htl
  have htlmem : tl ∈ l := mem_of_getLast?_eq htl
  have htlpos := h.pos tl htlmem
  intro n hn
  have hcovpre : ∀ m, m < usizeMax → delMap s e m ≤ n → n < usizeMax →
      (∀ t ∈ l, plainMem t m → n < (if t.stop = usizeMax then usizeMax
        else delMap s e t.stop)) →
      ∃ u ∈ l.filterMap (deleteRangeTag ⟨s, e⟩ (e - s)), plainMem u n := by
    intro m hmM hmn hnM hstop
    obtain ⟨t, ht, hm1, hm2⟩ := chain_covers l 0 h.ne h.headStart h.chain h.lastStop m
      (Nat.zero_le _) hmM
    have hstart : delMap s e t.start ≤ n :=
      le_trans (delMap_mono hm1) hmn
    have hstop2 := hstop t ht ⟨hm1, hm2⟩
    have hcond : delMap s e t.start <
        (if t.stop = usizeMax then usizeMax else delMap s e t.stop) := by
      omega
    refine ⟨{ t with
        start := delMap s e t.start,
        stop := (if t.stop = usizeMax then usizeMax else delMap s e t.stop) },
      List.mem_filterMap.mpr ⟨t, ht, ?_⟩, hstart, hstop2⟩
    rw [hchar t ht, if_pos hcond]
  by_cases hns : n < s
  · -- positions below s keep their covering tag
    refine hcovpre n hn (by unfold delMap; split_ifs <;> omega) hn ?_
    intro t ht hm
    split_ifs with hM
    · omega
    · have := h.pos t ht
      obtain ⟨hm1, hm2⟩ := hm
      unfold delMap
      split_ifs <;> omega
  · push_neg at hns
    by_cases hlastc : delMap s e tl.start ≤ n
    · -- the image of the sentinel tag covers n
      refine ⟨{ tl with
          start := delMap s e tl.start,
          stop := usizeMax },
        List.mem_filterMap.mpr ⟨tl, htlmem, ?_⟩, hlastc, hn⟩
      have hcond : delMap s e tl.start <
          (if tl.stop = usizeMax then usizeMax else delMap s e tl.stop) := by
        rw [if_pos htlM]
        have := delMap_le_self (s := s) (e := e) (x := tl.start)
        omega
      rw [hchar tl htlmem, if_pos hcond]
      simp [htlM]
    · push_neg at hlastc
      -- n is at or past s but below the image of the last tag start: the last
      -- tag starts after the deleted range, so n + (e - s) was covered before
      have htle : e < tl.start := by
        by_contra hc
        push_neg at hc
        have : delMap s e tl.start ≤ s := by
          unfold delMap
          split_ifs <;> omega
        omega
      have hdtl : delMap s e tl.start = tl.start - (e - s) := by
        unfold delMap
        split_ifs <;> omega
      have hnL : n + (e - s) < usizeMax := by
        have := h.le tl htlmem
        omega
      refine hcovpre (n + (e - s)) hnL (by unfold delMap; split_ifs <;> omega) hn ?_
      intro t ht hm
      obtain ⟨hm1, hm2⟩ := hm
      split_ifs with hM
      · omega
      · unfold delMap
        split_ifs <;> omega

/-! ### Preservation: `push_range` -/

/-- The surviving (possibly trimmed-in-place) part of a tag under
`adjust_existing_format_ranges`, as an option. -/
def survOf (r : URange) (t : FormatTag) : Option FormatTag :=
  if rangesOverlap t.range r then
    let p := adjustExistingFormatRange t r
    if p.2.1 then none else some p.1
  else some t

/-- The split-off right piece of a tag under `adjust_existing_format_ranges`. -/
def insOf (r : URange) (t : FormatTag) : Option FormatTag :=
  if rangesOverlap t.range r then (adjustExistingFormatRange t r).2.2 else none

/-- `adjust_existing_format_ranges` is the survivors in order followed by the
split-off pieces in order. -/
theorem adjustExistingFormatRanges_eq (tags : List FormatTag) (r : URange) :
    adjustExistingFormatRanges tags r =
      tags.filterMap (survOf r) ++ tags.filterMap (insOf r) := by
  have h1 : ∀ ts : List FormatTag,
      (((ts.map fun t => if rangesOverlap t.range r then adjustExistingFormatRange t r
        else (t, false, none)).filter fun p => !p.2.1).map fun p => p.1) =
        ts.filterMap (survOf r) := by
    intro ts
    induction ts with
    | nil => rfl
    | cons t ts ih =>
      simp only [List.map_cons, List.filter_cons, List.filterMap_cons]
      by_cases hov : rangesOverlap t.range r
      · simp only [survOf, hov, if_true]
        by_cases hdel : (adjustExistingFormatRange t r).2.1
        · simp [hdel, ih]
        · simp [hdel, ih]
      · simp [survOf, hov, ih]
  have h2 : ∀ ts : List FormatTag,
      ((ts.map fun t => if rangesOverlap t.range r then adjustExistingFormatRange t r
        else (t, false, none)).filterMap fun p => p.2.2) =
        ts.filterMap (insOf r) := by
    intro ts
    induction ts with
    | nil => rfl
    | cons t ts ih =>
      simp only [List.map_cons, List.filterMap_cons]
      by_cases hov : rangesOverlap t.range r
      · simp only [insOf, hov, if_true]
        cases (adjustExistingFormatRange t r).2.2 <;> simp [ih]
      · simp [insOf, hov, ih]
  show (((tags.map _).filter _).map _) ++ ((tags.map _).filterMap _) = _
  rw [h1, h2]

/-- Closed form of the surviving piece (for non-empty tags and `s < e`). -/
theorem survOf_eq {s e : Nat} (t : FormatTag) (hpos : t.start < t.stop) (hse : s < e) :
    survOf ⟨s, e⟩ t =
      (if t.stop ≤ s ∨ e ≤ t.start then some t
       else if t.start < s then some { t with stop := s }
       else if s < t.start ∧ e < t.stop then some { t with start := e }
       else none) := by
  obtain ⟨ts, tp, tb, tf, tg, tbo, ti⟩ := t
  simp only [survOf, adjustExistingFormatRange, FormatTag.range] at *
  simp only [rangesOverlap_iff, rangeFullyConatins_iff, rangeStartsOverlapping_iff,
    rangeEndsOverlapping_iff, beq_iff_eq]
  split_ifs <;>
    first
    | rfl
    | omega
    | (simp only [Option.some.injEq, FormatTag.mk.injEq, and_true, true_and,
        eq_self_iff_true, reduceCtorEq]
       omega)
    | (simp_all
       omega)
    | simp_all

/-- Closed form of the split-off piece (for non-empty tags and `s < e`). -/
theorem insOf_eq {s e : Nat} (t : FormatTag) (hpos : t.start < t.stop) (hse : s < e) :
    insOf ⟨s, e⟩ t =
      (if t.start ≤ s ∧ e < t.stop then some { t with start := e } else none) := by
  obtain ⟨ts, tp, tb, tf, tg, tbo, ti⟩ := t
  simp only [insOf, adjustExistingFormatRange, FormatTag.range] at *
  simp only [rangesOverlap_iff, rangeFullyConatins_iff, rangeStartsOverlapping_iff,
    rangeEndsOverlapping_iff, beq_iff_eq]
  split_ifs <;>
    first
    | rfl
    | omega
    | (simp only [Option.some.injEq, FormatTag.mk.injEq, and_true, true_and,
        eq_self_iff_true, reduceCtorEq]
       omega)

/-- Every surviving piece sits inside its source tag, is non-empty, and is
disjoint from the pushed range. -/
theorem survOf_bounds {s e : Nat} (hse : s < e) (t : FormatTag)
    (hpos : t.start < t.stop) (hle : t.stop ≤ usizeMax) :
    ∀ u, survOf ⟨s, e⟩ t = some u →
      t.start ≤ u.start ∧ u.stop ≤ t.stop ∧ u.start < u.stop ∧ u.stop ≤ usizeMax ∧
        (u.stop ≤ s ∨ e ≤ u.start) := by
  intro u hu
  rw [survOf_eq _ hpos hse] at hu
  split_ifs at hu with h1 h2 h3
  · injection hu with hu; subst hu
    exact ⟨le_rfl, le_rfl, hpos, hle, h1⟩
  · injection hu with hu; subst hu
    refine ⟨le_rfl, ?_, h2, ?_, Or.inl le_rfl⟩
    · show s ≤ t.stop
      omega
    · show s ≤ usizeMax
      omega
  · injection hu with hu; subst hu
    refine ⟨?_, le_rfl, h3.2, hle, Or.inr le_rfl⟩
    show t.start ≤ e
    omega

/-- Every split-off piece sits inside its source tag, is non-empty, and lies
at or after the pushed range. -/
theorem insOf_bounds {s e : Nat} (hse : s < e) (t : FormatTag)
    (hpos : t.start < t.stop) (hle : t.stop ≤ usizeMax) :
    ∀ v, insOf ⟨s, e⟩ t = some v →
      t.start ≤ v.start ∧ v.stop ≤ t.stop ∧ v.start < v.stop ∧ v.stop ≤ usizeMax ∧
        e ≤ v.start := by
  intro v hv
  rw [insOf_eq _ hpos hse] at hv
  split_ifs at hv with h1
  · injection hv with hv; subst hv
    refine ⟨?_, le_rfl, h1.2, hle, le_rfl⟩
    show t.start ≤ e
    omega

/-- The surviving piece of a tag ends before its own split-off piece starts. -/
theorem survOf_before_insOf {s e : Nat} (hse : s < e) (t : FormatTag)
    (hpos : t.start < t.stop) :
    ∀ u v, survOf ⟨s, e⟩ t = some u → insOf ⟨s, e⟩ t = some v →
      u.stop ≤ v.start := by
  intro u v hu hv
  rw [survOf_eq _ hpos hse] at hu
  rw [insOf_eq _ hpos hse] at hv
  split_ifs at hu hv with h1 h2 h3 <;>
    (injection hu with hu
     injection hv with hv
     subst hu
     subst hv
     first
     | exact le_of_lt hse
     | omega)

/-- Distinct tags of a well-formed list have separated intervals (in either
order). -/
theorem wf_sep_of_ne {l : List FormatTag} (h : TagsWf l) :
    ∀ a ∈ l, ∀ b ∈ l, a ≠ b → a.stop ≤ b.start ∨ b.stop ≤ a.start := by
  have hpw : l.Pairwise (fun a b : FormatTag => a.stop ≤ b.start ∨ b.stop ≤ a.start) :=
    (wf_pairwise_sep h).imp Or.inl
  have hsym : Symmetric (fun a b : FormatTag => a.stop ≤ b.start ∨ b.stop ≤ a.start) :=
    fun _ _ hab => hab.symm
  intro a ha b hb hne
  exact hpw.forall hsym ha hb hne

/-- `push_range` preserves structural well-formedness: the core lemma, stated
for an arbitrary appended tag spanning exactly the pushed range. -/
theorem tagsWf_adjusted_append {l : List FormatTag} (h : TagsWf l) {s e : Nat}
    (hse : s < e) (heM : e ≤ usizeMax) (nt : FormatTag)
    (hnts : nt.start = s) (hnte : nt.stop = e) :
    TagsWf (sortByStart (adjustExistingFormatRanges l ⟨s, e⟩ ++ [nt])) := by
  rw [adjustExistingFormatRanges_eq]
  have hPel : ∀ u ∈ (l.filterMap (survOf ⟨s, e⟩) ++ l.filterMap (insOf ⟨s, e⟩)) ++ [nt],
      u.start < u.stop ∧ u.stop ≤ usizeMax := by
    intro u hu
    rcases List.mem_append.mp hu with hu | hu
    · rcases List.mem_append.mp hu with hu | hu
      · obtain ⟨a, hma, hua⟩ := List.mem_filterMap.mp hu
        obtain ⟨_, _, h3, h4, _⟩ := survOf_bounds hse a (h.pos a hma) (h.le a hma) u hua
        exact ⟨h3, h4⟩
      · obtain ⟨b, hmb, hvb⟩ := List.mem_filterMap.mp hu
        obtain ⟨_, _, h3, h4, _⟩ := insOf_bounds hse b (h.pos b hmb) (h.le b hmb) u hvb
        exact ⟨h3, h4⟩
    · rw [List.mem_singleton.mp hu]
      omega
  have hrich := pairwise_and_mem
    (P := fun t => t.start < t.stop ∧ t.stop ≤ usizeMax ∧ t ∈ l)
    (fun t ht => ⟨h.pos t ht, h.le t ht, ht⟩) (wf_pairwise_sep h)
  have hdA : (l.filterMap (survOf ⟨s, e⟩)).Pairwise
      (fun u v => ∀ n, ¬(plainMem u n ∧ plainMem v n)) := by
    refine List.Pairwise.filterMap _ (fun a b hab => ?_) hrich
    obtain ⟨hst, ⟨hpa, hla, _⟩, hpb, hlb, _⟩ := hab
    intro u hu v hv n hn
    obtain ⟨hu1, hu2, _, _, _⟩ := survOf_bounds hse a hpa hla u hu
    obtain ⟨hv1, hv2, _, _, _⟩ := survOf_bounds hse b hpb hlb v hv
    obtain ⟨⟨k1, k2⟩, k3, k4⟩ := hn
    omega
  have hdB : (l.filterMap (insOf ⟨s, e⟩)).Pairwise
      (fun u v => ∀ n, ¬(plainMem u n ∧ plainMem v n)) := by
    refine List.Pairwise.filterMap _ (fun a b hab => ?_) hrich
    obtain ⟨hst, ⟨hpa, hla, _⟩, hpb, hlb, _⟩ := hab
    intro u hu v hv n hn
    obtain ⟨hu1, hu2, _, _, _⟩ := insOf_bounds hse a hpa hla u hu
    obtain ⟨hv1, hv2, _, _, _⟩ := insOf_bounds hse b hpb hlb v hv
    obtain ⟨⟨k1, k2⟩, k3, k4⟩ := hn
    omega
  have hcross : ∀ u ∈ l.filterMap (survOf ⟨s, e⟩), ∀ v ∈ l.filterMap (insOf ⟨s, e⟩),
      ∀ n, ¬(plainMem u n ∧ plainMem v n) := by
    intro u hu v hv n hn
    obtain ⟨a, hma, hua⟩ := List.mem_filterMap.mp hu
    obtain ⟨b, hmb, hvb⟩ := List.mem_filterMap.mp hv
    obtain ⟨hu1, hu2, _, _, _⟩ := survOf_bounds hse a (h.pos a hma) (h.le a hma) u hua
    obtain ⟨hv1, hv2, _, _, _⟩ := insOf_bounds hse b (h.pos b hmb) (h.le b hmb) v hvb
    obtain ⟨⟨k1, k2⟩, k3, k4⟩ := hn
    by_cases hab : a = b
    · subst hab
      have := survOf_before_insOf hse a (h.pos a hma) u v hua hvb
      omega
    · rcases wf_sep_of_ne h a hma b hmb hab with hh | hh <;> omega
  have hdP : ((l.filterMap (survOf ⟨s, e⟩) ++ l.filterMap (insOf ⟨s, e⟩)) ++ [nt]).Pairwise
      (fun u v => ∀ n, ¬(plainMem u n ∧ plainMem v n)) := by
    rw [List.pairwise_append]
    refine ⟨?_, ?_, ?_⟩
    · rw [List.pairwise_append]
      exact ⟨hdA, hdB, hcross⟩
    · exact List.pairwise_singleton _ _
    · intro u hu v hv
      rw [List.mem_singleton.mp hv]
      intro n hn
      obtain ⟨⟨k1, k2⟩, k3, k4⟩ := hn
      rcases List.mem_append.mp hu with hu | hu
      · obtain ⟨a, hma, hua⟩ := List.mem_filterMap.mp hu
        obtain ⟨_, _, _, _, h5⟩ := survOf_bounds hse a (h.pos a hma) (h.le a hma) u hua
        rcases h5 with h5 | h5 <;> omega
      · obtain ⟨b, hmb, hvb⟩ := List.mem_filterMap.mp hu
        obtain ⟨_, _, _, _, h5⟩ := insOf_bounds hse b (h.pos b hmb) (h.le b hmb) u hvb
        omega
  have hcovpre : ∀ n, n < usizeMax → ∃ t ∈ l, plainMem t n := fun n hn =>
    chain_covers l 0 h.ne h.headStart h.chain h.lastStop n (Nat.zero_le n) hn
  have hcovP : ∀ n, n < usizeMax →
      ∃ u ∈ (l.filterMap (survOf ⟨s, e⟩) ++ l.filterMap (insOf ⟨s, e⟩)) ++ [nt],
        plainMem u n := by
    intro n hn
    by_cases hin : s ≤ n ∧ n < e
    · exact ⟨nt, List.mem_append_right _ (List.mem_singleton_self nt),
        by rw [hnts]; exact hin.1, by rw [hnte]; exact hin.2⟩
    · obtain ⟨t, ht, hmt⟩ := hcovpre n hn
      have hm1 := hmt.1
      have hm2 := hmt.2
      have hpos := h.pos t ht
      by_cases hlt : n < s
      · by_cases hb1 : t.stop ≤ s ∨ e ≤ t.start
        · refine ⟨t, List.mem_append_left _ (List.mem_append_left _
            (List.mem_filterMap.mpr ⟨t, ht, ?_⟩)), hmt⟩
          rw [survOf_eq t hpos hse, if_pos hb1]
        · by_cases hb2 : t.start < s
          · refine ⟨{ t with stop := s }, List.mem_append_left _ (List.mem_append_left _
              (List.mem_filterMap.mpr ⟨t, ht, ?_⟩)), hm1, hlt⟩
            rw [survOf_eq t hpos hse, if_neg hb1, if_pos hb2]
          · omega
      · have hen : e ≤ n := by omega
        by_cases hb1 : t.stop ≤ s ∨ e ≤ t.start
        · refine ⟨t, List.mem_append_left _ (List.mem_append_left _
            (List.mem_filterMap.mpr ⟨t, ht, ?_⟩)), hmt⟩
          rw [survOf_eq t hpos hse, if_pos hb1]
        · by_cases hbi : t.start ≤ s
          · refine ⟨{ t with start := e }, List.mem_append_left _ (List.mem_append_right _
              (List.mem_filterMap.mpr ⟨t, ht, ?_⟩)), hen, hm2⟩
            rw [insOf_eq t hpos hse, if_pos ⟨hbi, by omega⟩]
          · refine ⟨{ t with start := e }, List.mem_append_left _ (List.mem_append_left _
              (List.mem_filterMap.mpr ⟨t, ht, ?_⟩)), hen, hm2⟩
            rw [survOf_eq t hpos hse, if_neg hb1, if_neg (by omega), if_pos ⟨by omega, by omega⟩]
  have hperm := sortByStart_perm
    ((l.filterMap (survOf ⟨s, e⟩) ++ l.filterMap (insOf ⟨s, e⟩)) ++ [nt])
  have hposS : ∀ u ∈ sortByStart
      ((l.filterMap (survOf ⟨s, e⟩) ++ l.filterMap (insOf ⟨s, e⟩)) ++ [nt]),
      u.start < u.stop := fun u hu => (hPel u (hperm.mem_iff.mp hu)).1
  refine tagsWf_mk (sep_of_sorted_disjoint (sortByStart_sorted _) ?_ hposS) hposS
    (fun u hu => (hPel u (hperm.mem_iff.mp hu)).2) ?_
  · exact (List.Perm.pairwise_iff (fun hx n hn => hx n ⟨hn.2, hn.1⟩) hperm).mpr hdP
  · intro n hn
    obtain ⟨u, hu, hm⟩ := hcovP n hn
    exact ⟨u, hperm.mem_iff.mpr hu, hm⟩

/-- `push_range` preserves structural well-formedness. -/
theorem tagsWf_push_range {l : List FormatTag} (h : TagsWf l) (c : CursorState)
    {s e : Nat} (hse : s < e) (heM : e ≤ usizeMax) :
    TagsWf ((FormatTracker.mk l).push_range c ⟨s, e⟩).color_info :=
  tagsWf_adjusted_append h hse heM _ rfl rfl

/-- The single default tag is well formed. -/
theorem tagsWf_default : TagsWf [defaultTag] := by
  refine ⟨by simp, ?_, ?_, ?_, ?_, ?_⟩
  · intro t ht
    simp only [List.head?_cons, Option.some.injEq] at ht
    rw [← ht]
    rfl
  · simp
  · intro t ht
    simp only [List.getLast?_singleton, Option.some.injEq] at ht
    rw [← ht]
    rfl
  · intro t ht
    rw [List.mem_singleton.mp ht]
    show 0 < usizeMax
    exact usizeMax_pos
  · intro t ht
    rw [List.mem_singleton.mp ht]
    exact le_rfl

/-- The precondition under which each operation is exercised: pushed and
adjusted ranges are non-empty and bounded (so the `usize` arithmetic of the
source does not overflow), deleted ranges are non-empty and lie strictly
below the sentinel. -/
def stepOK (tr : FormatTracker) : TrackerOp → Prop
  | .push_range _ r => r.start < r.stop ∧ r.stop ≤ usizeMax
  | .push_range_adjustment r => r.start < r.stop ∧
      ∀ t ∈ tr.color_info, t.start + (r.stop - r.start) < usizeMax ∧
        (t.stop ≠ usizeMax → t.stop + (r.stop - r.start) < usizeMax)
  | .delete_range r => r.start < r.stop ∧ r.stop < usizeMax
  | .reset => True

/-- Each operation of the sequence satisfies its precondition in the state
it is applied to. -/
def stepsOK (tr : FormatTracker) : List TrackerOp → Prop
  | [] => True
  | op :: ops => stepOK tr op ∧ stepsOK (applyTrackerOp tr op) ops

/-- One admissible operation preserves structural well-formedness. -/
theorem tagsWf_step {tr : FormatTracker} (h : TagsWf tr.color_info) {op : TrackerOp}
    (hok : stepOK tr op) : TagsWf (applyTrackerOp tr op).color_info := by
  cases op with
  | push_range c r => exact tagsWf_push_range h c hok.1 hok.2
  | push_range_adjustment r => exact tagsWf_push_range_adjustment h hok.1 hok.2
  | delete_range r => exact tagsWf_delete_range h hok.1 hok.2
  | reset => exact tagsWf_default

/-- Admissible operation sequences preserve structural well-formedness. -/
theorem tagsWf_applyOps : ∀ (ops : List TrackerOp) (tr : FormatTracker),
    TagsWf tr.color_info → stepsOK tr ops → TagsWf (applyTrackerOps tr ops).color_info
  | [], _, h, _ => h
  | _ :: ops, tr, h, hok => tagsWf_applyOps ops _ (tagsWf_step h hok.1) hok.2

/-- Prefixes of an admissible sequence are admissible. -/
theorem stepsOK_take : ∀ (ops : List TrackerOp) (tr : FormatTracker), stepsOK tr ops →
    ∀ k, stepsOK tr (ops.take k)
  | [], _, _, k => by cases k <;> trivial
  | _ :: _, _, _, 0 => trivial
  | _ :: ops, tr, h, k + 1 => ⟨h.1, stepsOK_take ops _ h.2 k⟩

/-- C1 (amended): starting from the freshly constructed tracker, for every
sequence of `push_range` / `push_range_adjustment` / `delete_range` / `reset`
operations whose range arguments are non-empty and suitably bounded
(`stepsOK`: pushed ranges satisfy `start < end ≤ usize::MAX`, adjustment
shifts stay below the sentinel, deleted ranges satisfy
`start < end < usize::MAX`), after every prefix of the sequence the tag
vector is sorted by `start`, pairwise non-overlapping, covers `[0, ∞)` with
no gaps, and exactly one tag has `end = ∞` and it is the last tag.  (The
original claim, which required only `start ≤ end`, is refuted by
`C1_counterexample`.) -/
theorem C1_invariant (ops : List TrackerOp) (hok : stepsOK FormatTracker.new ops)
    (k : Nat) (_hk : k ≤ ops.length) :
    trackerInvariant (applyTrackerOps FormatTracker.new (ops.take k)).color_info :=
  trackerInvariant_of_wf
    (tagsWf_applyOps (ops.take k) FormatTracker.new tagsWf_default
      (stepsOK_take ops FormatTracker.new hok k))

/-- C1 witness: the invariant theorem applied to a concrete admissible
sequence (a push, a structural shift, a delete, then a reset) at prefix
length 3. -/
theorem C1_invariant_witness :
    trackerInvariant (applyTrackerOps FormatTracker.new
      ([TrackerOp.push_range defaultCursorState ⟨1, 3⟩,
        TrackerOp.push_range_adjustment ⟨0, 2⟩,
        TrackerOp.delete_range ⟨2, 4⟩,
        TrackerOp.reset].take 3)).color_info :=
  C1_invariant _
    (by
      simp only [stepsOK, stepOK]
      refine ⟨⟨?_, ?_⟩, ⟨?_, ?_⟩, ⟨?_, ?_⟩, trivial, trivial⟩ <;> decide)
    3 (by decide)

/-! ## Section 3: screen buffer (buffer.rs and mod.rs) -/

/-- The loop of `calc_line_ranges` from buffer.rs, carrying the enumeration
index `i` and `current_start`, followed by the final
`if buf.len() > current_start` push (`i` ends at `buf.len()`). -/
def calcLineRangesGo (width : Nat) : List Nat → Nat → Nat → List URange
  | [], i, currentStart => if currentStart < i then [⟨currentStart, i⟩] else []
  | c :: rest, i, currentStart =>
    if c = 10 then
      ⟨currentStart, i⟩ :: calcLineRangesGo width rest (i + 1) (i + 1)
    else if i - currentStart = width then
      ⟨currentStart, i⟩ :: calcLineRangesGo width rest (i + 1) i
    else
      calcLineRangesGo width rest (i + 1) currentStart

/-- `calc_line_ranges` from buffer.rs. -/
def calcLineRanges (buf : List Nat) (width : Nat) : List URange :=
  calcLineRangesGo width buf 0 0

/-- The `assert!(bytes_since_start <= width)` checks performed by
`calc_line_ranges` from buffer.rs, as a boolean run of the same loop. -/
def clrAssertOkGo (width : Nat) : List Nat → Nat → Nat → Bool
  | [], _, _ => true
  | c :: rest, i, currentStart =>
    if c = 10 then clrAssertOkGo width rest (i + 1) (i + 1)
    else
      decide (i - currentStart ≤ width) &&
        (if i - currentStart = width then clrAssertOkGo width rest (i + 1) i
         else clrAssertOkGo width rest (i + 1) currentStart)

/-- All assertions of `calc_line_ranges(buf, width)` from buffer.rs succeed. -/
def clrAssertOk (buf : List Nat) (width : Nat) : Bool :=
  clrAssertOkGo width buf 0 0

/-- The loop of `calc_line_ranges` from mod.rs, which tracks a separate
`bytes_since_newline` counter that is reset to 0 (instead of 1) when a wrap
push happens. -/
def calcLineRangesEmuGo (width : Nat) : List Nat → Nat → Nat → Nat → List URange
  | [], i, currentStart, _ => if currentStart < i then [⟨currentStart, i⟩] else []
  | c :: rest, i, currentStart, bsn =>
    if c = 10 then
      ⟨currentStart, i⟩ :: calcLineRangesEmuGo width rest (i + 1) (i + 1) 0
    else if bsn = width then
      ⟨currentStart, i⟩ :: calcLineRangesEmuGo width rest (i + 1) i 0
    else
      calcLineRangesEmuGo width rest (i + 1) currentStart (bsn + 1)

/-- `calc_line_ranges` from mod.rs. -/
def calcLineRangesEmu (buf : List Nat) (width : Nat) : List URange :=
  calcLineRangesEmuGo width buf 0 0 0

/-- The bytes of `buf` at the half-open index range `r`. -/
def sliceRange (buf : List Nat) (r : URange) : List Nat :=
  (buf.take r.stop).drop r.start

/-- The reconstruction operation described by the claim: concatenate the
ranges' bytes, reinserting the newline bytes at the gaps between consecutive
ranges. -/
def reconstructLines (buf : List Nat) : List URange → List Nat
  | [] => []
  | [r] => sliceRange buf r
  | r :: r' :: rest =>
    sliceRange buf r ++ List.replicate (r'.start - r.stop) 10 ++
      reconstructLines buf (r' :: rest)

/-- `buf` with a single trailing newline byte removed, if present. -/
def dropTrailingNewline (buf : List Nat) : List Nat :=
  if buf.getLast? = some 10 then buf.dropLast else buf

/-- `line_ranges_to_visible_line_ranges` from buffer.rs (and mod.rs): the
last `height` line ranges (all of them if there are fewer). -/
def lineRangesToVisibleLineRanges (lineRanges : List URange) (height : Nat) :
    List URange :=
  if lineRanges = [] then lineRanges
  else lineRanges.drop (lineRanges.length - height)

/-! ### Properties of `calc_line_ranges` (buffer.rs) -/

/-- The first range the loop produces starts at the incoming `current_start`. -/
theorem calcLineRangesGo_head_start (width : Nat) :
    ∀ (rest : List Nat) (i cs : Nat) (r : URange),
      (calcLineRangesGo width rest i cs).head? = some r → r.start = cs := by
  intro rest
  induction rest with
  | nil =>
    intro i cs r hr
    simp only [calcLineRangesGo] at hr
    split_ifs at hr with h
    · rw [List.head?_cons] at hr
      injection hr with hr
      subst hr
      rfl
    · simp at hr
  | cons c rest ih =>
    intro i cs r hr
    simp only [calcLineRangesGo] at hr
    split_ifs at hr with h1 h2
    · rw [List.head?_cons] at hr
      injection hr with hr
      subst hr
      rfl
    · rw [List.head?_cons] at hr
      injection hr with hr
      subst hr
      rfl
    · exact ih (i + 1) cs r hr

/-- The loop produces at least one range, unless it starts at the very end
with nothing pending. -/
theorem calcLineRangesGo_ne_nil (width : Nat) :
    ∀ (rest : List Nat) (i cs : Nat), cs ≤ i → (cs < i ∨ rest ≠ []) →
      calcLineRangesGo width rest i cs ≠ [] := by
  intro rest
  induction rest with
  | nil =>
    intro i cs _ hd
    rcases hd with hd | hd
    · simp only [calcLineRangesGo]
      rw [if_pos hd]
      simp
    · exact absurd rfl hd
  | cons c rest ih =>
    intro i cs hcs _
    simp only [calcLineRangesGo]
    split_ifs with h1 h2
    · simp
    · simp
    · exact ih (i + 1) cs (by omega) (Or.inl (by omega))

/-- Every range the loop produces is well ordered and no wider than `width`. -/
theorem calcLineRangesGo_bounds (width : Nat) (hw : 1 ≤ width) :
    ∀ (rest : List Nat) (i cs : Nat), cs ≤ i → i - cs ≤ width →
      ∀ r ∈ calcLineRangesGo width rest i cs,
        cs ≤ r.start ∧ r.start ≤ r.stop ∧ r.stop - r.start ≤ width := by
  intro rest
  induction rest with
  | nil =>
    intro i cs hcs hinv r hr
    simp only [calcLineRangesGo] at hr
    split_ifs at hr with h
    · rw [List.mem_singleton] at hr
      subst hr
      refine ⟨le_rfl, ?_, ?_⟩
      · show cs ≤ i
        omega
      · show i - cs ≤ width
        omega
    · cases hr
  | cons c rest ih =>
    intro i cs hcs hinv r hr
    simp only [calcLineRangesGo] at hr
    split_ifs at hr with h1 h2
    · rcases List.mem_cons.mp hr with rfl | hr2
      · refine ⟨le_rfl, ?_, ?_⟩
        · show cs ≤ i
          omega
        · show i - cs ≤ width
          omega
      · have h3 := ih (i + 1) (i + 1) le_rfl (by omega) r hr2
        exact ⟨by omega, h3.2.1, h3.2.2⟩
    · rcases List.mem_cons.mp hr with rfl | hr2
      · refine ⟨le_rfl, ?_, ?_⟩
        · show cs ≤ i
          omega
        · show i - cs ≤ width
          omega
      · have h3 := ih (i + 1) i (by omega) (by omega) r hr2
        exact ⟨by omega, h3.2.1, h3.2.2⟩
    · exact ih (i + 1) cs (by omega) (by omega) r hr

/-- The ranges the loop produces are adjacent or separated by one newline,
with strictly increasing starts. -/
theorem calcLineRangesGo_chain (width : Nat) (hw : 1 ≤ width) :
    ∀ (rest : List Nat) (i cs : Nat), cs ≤ i → i - cs ≤ width →
      (calcLineRangesGo width rest i cs).Chain'
        (fun a b => a.stop ≤ b.start ∧ a.start < b.start) := by
  intro rest
  induction rest with
  | nil =>
    intro i cs _ _
    simp only [calcLineRangesGo]
    split_ifs
    · exact List.chain'_singleton _
    · exact List.chain'_nil
  | cons c rest ih =>
    intro i cs hcs hinv
    simp only [calcLineRangesGo]
    split_ifs with h1 h2
    · rw [List.chain'_cons']
      refine ⟨?_, ih (i + 1) (i + 1) le_rfl (by omega)⟩
      intro b hb
      have hbs := calcLineRangesGo_head_start width rest (i + 1) (i + 1) b
        (Option.mem_def.mp hb)
      refine ⟨?_, ?_⟩
      · show i ≤ b.start
        omega
      · show cs < b.start
        omega
    · rw [List.chain'_cons']
      refine ⟨?_, ih (i + 1) i (by omega) (by omega)⟩
      intro b hb
      have hbs := calcLineRangesGo_head_start width rest (i + 1) i b
        (Option.mem_def.mp hb)
      refine ⟨?_, ?_⟩
      · show i ≤ b.start
        omega
      · show cs < b.start
        omega
    · exact ih (i + 1) cs (by omega) (by omega)

/-- The width assertions of the loop all succeed when `width ≥ 1`. -/
theorem clrAssertOkGo_true (width : Nat) (hw : 1 ≤ width) :
    ∀ (rest : List Nat) (i cs : Nat), cs ≤ i → i - cs ≤ width →
      clrAssertOkGo width rest i cs = true := by
  intro rest
  induction rest with
  | nil => intro i cs _ _; rfl
  | cons c rest ih =>
    intro i cs hcs hinv
    simp only [clrAssertOkGo]
    split_ifs with h1 h2
    · exact ih (i + 1) (i + 1) le_rfl (by omega)
    · rw [Bool.and_eq_true]
      exact ⟨by simpa using hinv, ih (i + 1) i (by omega) (by omega)⟩
    · rw [Bool.and_eq_true]
      exact ⟨by simpa using hinv, ih (i + 1) cs (by omega) (by omega)⟩

theorem sliceRange_empty (buf : List Nat) (n : Nat) : sliceRange buf ⟨n, n⟩ = [] := by
  show (buf.take n).drop n = []
  exact List.drop_eq_nil_of_le (by rw [List.length_take]; omega)

theorem sliceRange_extend {buf : List Nat} {i cs c : Nat}
    (hcs : cs ≤ i) (hci : buf[i]? = some c) :
    sliceRange buf ⟨cs, i + 1⟩ = sliceRange buf ⟨cs, i⟩ ++ [c] := by
  have hlen : i < buf.length := (List.getElem?_eq_some_iff.mp hci).1
  show (buf.take (i + 1)).drop cs = (buf.take i).drop cs ++ [c]
  rw [List.take_succ, hci, Option.toList_some,
    List.drop_append_of_le_length (by rw [List.length_take]; omega)]

theorem dropTrailingNewline_cons (c : Nat) (rest : List Nat)
    (h : c ≠ 10 ∨ rest ≠ []) :
    dropTrailingNewline (c :: rest) = c :: dropTrailingNewline rest := by
  rcases rest with _ | ⟨c', rest⟩
  · rcases h with h | h
    · unfold dropTrailingNewline
      rw [if_neg (by simp [h]), if_neg (by simp)]
    · exact absurd rfl h
  · unfold dropTrailingNewline
    rw [List.getLast?_cons_cons]
    split_ifs <;> rfl

/-- Reconstructing the loop's output recovers the pending partial line and the
remaining input, save for one trailing newline. -/
theorem reconstructLines_go (width : Nat) (hw : 1 ≤ width) (buf : List Nat) :
    ∀ (rest : List Nat) (i cs : Nat), cs ≤ i → i - cs ≤ width →
      rest = buf.drop i →
      reconstructLines buf (calcLineRangesGo width rest i cs) =
        sliceRange buf ⟨cs, i⟩ ++ dropTrailingNewline rest := by
  intro rest
  induction rest with
  | nil =>
    intro i cs hcs _ _
    simp only [calcLineRangesGo]
    split_ifs with h
    · show sliceRange buf ⟨cs, i⟩ = _
      rw [show dropTrailingNewline [] = [] from rfl, List.append_nil]
    · have hcsi : cs = i := by omega
      subst hcsi
      show ([] : List Nat) = _
      rw [show dropTrailingNewline [] = [] from rfl, List.append_nil, sliceRange_empty]
  | cons c rest ih =>
    intro i cs hcs hinv hdrop
    have hrest : rest = buf.drop (i + 1) := by
      rw [← List.tail_drop, ← hdrop]
      rfl
    have hci : buf[i]? = some c := by
      rw [← List.head?_drop, ← hdrop, List.head?_cons]
    simp only [calcLineRangesGo]
    split_ifs with h1 h2
    · -- newline byte
      subst h1
      rcases rest with _ | ⟨c', rest'⟩
      · rw [show calcLineRangesGo width [] (i + 1) (i + 1) = [] by
          simp only [calcLineRangesGo]; rw [if_neg (lt_irrefl _)]]
        show sliceRange buf ⟨cs, i⟩ = _
        rw [show dropTrailingNewline [10] = [] from rfl, List.append_nil]
      · have hne := calcLineRangesGo_ne_nil width (c' :: rest') (i + 1) (i + 1)
          le_rfl (Or.inr (by simp))
        obtain ⟨r', R'', hR⟩ := List.exists_cons_of_ne_nil hne
        have hr's : r'.start = i + 1 := by
          refine calcLineRangesGo_head_start width (c' :: rest') (i + 1) (i + 1) r' ?_
          rw [hR, List.head?_cons]
        rw [hR]
        show sliceRange buf ⟨cs, i⟩ ++
            List.replicate (r'.start - i) 10 ++ reconstructLines buf (r' :: R'') = _
        rw [← hR, ih (i + 1) (i + 1) le_rfl (by omega) hrest, sliceRange_empty,
          List.nil_append, hr's, show i + 1 - i = 1 from by omega,
          dropTrailingNewline_cons 10 (c' :: rest') (Or.inr (by simp)),
          List.append_assoc]
        rfl
    · -- wrap at the width boundary
      have hne := calcLineRangesGo_ne_nil width rest (i + 1) i (by omega)
        (Or.inl (by omega))
      obtain ⟨r', R'', hR⟩ := List.exists_cons_of_ne_nil hne
      have hr's : r'.start = i := by
        refine calcLineRangesGo_head_start width rest (i + 1) i r' ?_
        rw [hR, List.head?_cons]
      rw [hR]
      show sliceRange buf ⟨cs, i⟩ ++
          List.replicate (r'.start - i) 10 ++ reconstructLines buf (r' :: R'') = _
      rw [← hR, ih (i + 1) i (by omega) (by omega) hrest, hr's,
        show i - i = 0 from by omega, List.replicate_zero, List.append_nil,
        sliceRange_extend (le_refl i) hci, sliceRange_empty, List.nil_append,
        dropTrailingNewline_cons c rest (Or.inl h1)]
      rfl
    · -- plain byte within the width
      rw [ih (i + 1) cs (by omega) (by omega) hrest,
        sliceRange_extend hcs hci,
        dropTrailingNewline_cons c rest (Or.inl h1), List.append_assoc]
      rfl

/-- C3 counterexample: the claim fails in two ways.  The mod.rs copy of
`calc_line_ranges` (whose `bytes_since_newline` counter skips the byte at a
wrap) produces a range wider than the width (`b"aaaa"` at width 1 yields the
range `1..3`), and even for the buffer.rs copy the reconstruction loses a
trailing newline (`b"\n"` yields the single empty range `0..0`, which
reconstructs to the empty buffer). -/
theorem C3_counterexample :
    (∃ r ∈ calcLineRangesEmu [97, 97, 97, 97] 1, 1 < r.stop - r.start) ∧
      reconstructLines [10] (calcLineRanges [10] 1) ≠ [10] := by
  decide

/-- C3 (amended, for the buffer.rs `calc_line_ranges`): for every byte
sequence and width `w ≥ 1`, the internal width assertion never fires, every
produced range is well ordered and at most `w` wide, consecutive ranges are
adjacent or separated by exactly the skipped newline with strictly
increasing starts, and concatenating the ranges' bytes with newlines
reinserted at the gaps reconstructs the buffer *minus one trailing newline*
(the exact reconstruction asserted by the claim fails on buffers ending in a
newline, and the mod.rs copy additionally violates the width bound; see
`C3_counterexample`). -/
theorem C3_line_ranges (buf : List Nat) (w : Nat) (hw : 1 ≤ w) :
    clrAssertOk buf w = true ∧
      (∀ r ∈ calcLineRanges buf w, r.start ≤ r.stop ∧ r.stop - r.start ≤ w) ∧
      (calcLineRanges buf w).Chain' (fun a b => a.stop ≤ b.start ∧ a.start < b.start) ∧
      reconstructLines buf (calcLineRanges buf w) = dropTrailingNewline buf := by
  refine ⟨clrAssertOkGo_true w hw buf 0 0 le_rfl (by omega), ?_, ?_, ?_⟩
  · intro r hr
    exact (calcLineRangesGo_bounds w hw buf 0 0 le_rfl (by omega) r hr).2
  · exact calcLineRangesGo_chain w hw buf 0 0 le_rfl (by omega)
  · have h := reconstructLines_go w hw buf buf 0 0 le_rfl (by omega)
      (by rw [List.drop_zero])
    rw [calcLineRanges, h, sliceRange_empty, List.nil_append]

/-- C3 witness: the amended theorem applied to the documentation example
`calc_line_ranges(b"12\n1234\n12345", 4)`. -/
theorem C3_line_ranges_witness :
    1 ≤ 4 ∧
      (clrAssertOk [49, 50, 10, 49, 50, 51, 52, 10, 49, 50, 51, 52, 53] 4 = true ∧
        (∀ r ∈ calcLineRanges [49, 50, 10, 49, 50, 51, 52, 10, 49, 50, 51, 52, 53] 4,
          r.start ≤ r.stop ∧ r.stop - r.start ≤ 4) ∧
        (calcLineRanges [49, 50, 10, 49, 50, 51, 52, 10, 49, 50, 51, 52, 53] 4).Chain'
          (fun a b => a.stop ≤ b.start ∧ a.start < b.start) ∧
        reconstructLines [49, 50, 10, 49, 50, 51, 52, 10, 49, 50, 51, 52, 53]
            (calcLineRanges [49, 50, 10, 49, 50, 51, 52, 10, 49, 50, 51, 52, 53] 4) =
          dropTrailingNewline [49, 50, 10, 49, 50, 51, 52, 10, 49, 50, 51, 52, 53]) :=
  ⟨by decide, C3_line_ranges [49, 50, 10, 49, 50, 51, 52, 10, 49, 50, 51, 52, 53] 4
    (by decide)⟩

/-! ### Cursor/buffer projections (buffer.rs) -/

/-- The `iter().enumerate().find(...)` over the visible line ranges used by
`buf_to_cursor_pos`, carrying the enumeration index. -/
def findRangeFrom (p : URange → Bool) : List URange → Nat → Option (Nat × URange)
  | [], _ => none
  | r :: rest, i => if p r then some (i, r) else findRangeFrom p rest (i + 1)

/-- `buf_to_cursor_pos` from buffer.rs (the `Result`-returning version; the
error payload is `InvalidBufPos`). -/
def bufToCursorPos (buf : List Nat) (width height bufPos : Nat) :
    Except (Nat × Nat) CursorPos :=
  match findRangeFrom (fun r => decide (bufPos ≤ r.stop))
      (lineRangesToVisibleLineRanges (calcLineRanges buf width) height) 0 with
  | none => .error (bufPos, buf.length)
  | some (y, r) =>
    if bufPos < r.start then .ok ⟨0, 0⟩
    else .ok ⟨bufPos - r.start, y⟩

/-- `cursor_to_buf_pos_from_visible_line_ranges` from buffer.rs. -/
def cursorToBufPosFromVisibleLineRanges (cursor : CursorPos)
    (visible : List URange) : Option (Nat × URange) :=
  match visible[cursor.y]? with
  | none => none
  | some range =>
    if range.start + cursor.x > range.stop then none
    else some (range.start + cursor.x, range)

/-- `cursor_to_buf_pos` from buffer.rs. -/
def cursorToBufPos (buf : List Nat) (cursor : CursorPos) (width height : Nat) :
    Option (Nat × URange) :=
  cursorToBufPosFromVisibleLineRanges cursor
    (lineRangesToVisibleLineRanges (calcLineRanges buf width) height)

/-- A successful `find` returns the first hit, indexed from the start value. -/
theorem findRangeFrom_some (p : URange → Bool) :
    ∀ (l : List URange) (k j : Nat) (r : URange),
      findRangeFrom p l k = some (j, r) →
      k ≤ j ∧ l[j - k]? = some r ∧ p r = true ∧
        ∀ m, m < j - k → ∃ r', l[m]? = some r' ∧ p r' = false := by
  intro l
  induction l with
  | nil => intro k j r hfind; cases hfind
  | cons a rest ih =>
    intro k j r hfind
    simp only [findRangeFrom] at hfind
    split_ifs at hfind with hp
    · rw [Option.some_inj, Prod.mk.injEq] at hfind
      obtain ⟨h1, h2⟩ := hfind
      subst h1
      subst h2
      refine ⟨le_rfl, ?_, hp, ?_⟩
      · rw [Nat.sub_self]
        exact List.getElem?_cons_zero
      · intro m hm
        omega
    · obtain ⟨hkj, hget, hp', hall⟩ := ih (k + 1) j r hfind
      refine ⟨by omega, ?_, hp', ?_⟩
      · rw [show j - k = (j - (k + 1)) + 1 from by omega, List.getElem?_cons_succ]
        exact hget
      · intro m hm
        cases m with
        | zero => exact ⟨a, List.getElem?_cons_zero, Bool.eq_false_iff.mpr hp⟩
        | succ m =>
          obtain ⟨r', hr', hpr'⟩ := hall m (by omega)
          exact ⟨r', by rw [List.getElem?_cons_succ]; exact hr', hpr'⟩

/-- `find` succeeds whenever some element matches. -/
theorem findRangeFrom_isSome (p : URange → Bool) :
    ∀ (l : List URange) (k : Nat), (∃ r ∈ l, p r = true) →
      ∃ j r, findRangeFrom p l k = some (j, r) := by
  intro l
  induction l with
  | nil =>
    intro k hex
    obtain ⟨r, hr, _⟩ := hex
    cases hr
  | cons a rest ih =>
    intro k hex
    simp only [findRangeFrom]
    split_ifs with hp
    · exact ⟨k, a, rfl⟩
    · obtain ⟨r, hr, hpr⟩ := hex
      rcases List.mem_cons.mp hr with rfl | hr2
      · exact absurd hpr hp
      · exact ih (k + 1) ⟨r, hr2, hpr⟩

/-- The visible line ranges have strictly increasing starts. -/
theorem visible_pairwise_start (buf : List Nat) (w h : Nat) (hw : 1 ≤ w) :
    (lineRangesToVisibleLineRanges (calcLineRanges buf w) h).Pairwise
      (fun a b => a.start < b.start) := by
  have hpw : (calcLineRanges buf w).Pairwise (fun a b => a.start < b.start) := by
    have hchain := calcLineRangesGo_chain w hw buf 0 0 le_rfl (by omega)
    have hchain2 : (calcLineRanges buf w).Chain' (fun a b : URange => a.start < b.start) :=
      List.Chain'.imp (fun a b hab => hab.2) hchain
    exact (@List.chain'_iff_pairwise URange (fun a b : URange => a.start < b.start)
      ⟨fun _ _ _ hab hbc => Nat.lt_trans hab hbc⟩ (calcLineRanges buf w)).mp hchain2
  unfold lineRangesToVisibleLineRanges
  split_ifs with hnil
  · rw [hnil]
    exact List.Pairwise.nil
  · exact List.Pairwise.sublist (List.drop_sublist _ _) hpw

/-- Round trip at the heart of C10 and C2: a buffer position lying on a
visible line maps to a cursor that maps back to the same buffer position. -/
theorem bufToCursorPos_roundtrip (buf : List Nat) (w h p : Nat) (hw : 1 ≤ w)
    (hvis : ∃ r ∈ lineRangesToVisibleLineRanges (calcLineRanges buf w) h,
      r.start ≤ p ∧ p ≤ r.stop) :
    ∃ cp rr, bufToCursorPos buf w h p = Except.ok cp ∧
      cursorToBufPos buf cp w h = some (p, rr) := by
  obtain ⟨rv, hrv, hs, he⟩ := hvis
  have hfind : ∃ j r, findRangeFrom (fun r => decide (p ≤ r.stop))
      (lineRangesToVisibleLineRanges (calcLineRanges buf w) h) 0 = some (j, r) :=
    findRangeFrom_isSome _ _ 0 ⟨rv, hrv, by simpa using he⟩
  obtain ⟨j, rf, hj⟩ := hfind
  obtain ⟨_, hget, hpf, hall⟩ := findRangeFrom_some _ _ 0 j rf hj
  rw [Nat.sub_zero] at hget hall
  have hpf' : p ≤ rf.stop := by simpa using hpf
  have hstart : rf.start ≤ p := by
    obtain ⟨jv, hjvlen, hjveq⟩ := List.mem_iff_getElem.mp hrv
    obtain ⟨hjlen, hjeq⟩ := List.getElem?_eq_some_iff.mp hget
    have hpw := visible_pairwise_start buf w h hw
    rcases lt_trichotomy j jv with hlt | heq | hgt
    · have hmono := List.pairwise_iff_getElem.mp hpw j jv hjlen hjvlen hlt
      rw [hjeq, hjveq] at hmono
      omega
    · subst heq
      rw [hjeq] at hjveq
      rw [hjveq]
      exact hs
    · obtain ⟨r', hr', hpr'⟩ := hall jv hgt
      obtain ⟨_, hr'eq⟩ := List.getElem?_eq_some_iff.mp hr'
      rw [hjveq] at hr'eq
      rw [← hr'eq] at hpr'
      simp at hpr'
      omega
  refine ⟨⟨p - rf.start, j⟩, rf, ?_, ?_⟩
  · simp only [bufToCursorPos, hj]
    rw [if_neg (by omega)]
  · simp only [cursorToBufPos, cursorToBufPosFromVisibleLineRanges, hget]
    rw [if_neg (by omega)]
    simp only [Option.some_inj, Prod.mk.injEq]
    exact ⟨by omega, trivial⟩

/-- C10 (confirmed): for every buffer, width ≥ 1, height ≥ 1 and buffer
position `p` lying within a visible logical line, `buf_to_cursor_pos`
followed by `cursor_to_buf_pos` returns `Some` with the same buffer position
`p`: the two projections are mutually inverse on visible buffer positions. -/
theorem C10_projection_roundtrip (buf : List Nat) (w h : Nat) (hw : 1 ≤ w)
    (hh : 1 ≤ h) (p : Nat)
    (hvis : ∃ r ∈ lineRangesToVisibleLineRanges (calcLineRanges buf w) h,
      r.start ≤ p ∧ p ≤ r.stop) :
    ∃ cp rr, bufToCursorPos buf w h p = Except.ok cp ∧
      cursorToBufPos buf cp w h = some (p, rr) :=
  bufToCursorPos_roundtrip buf w h p hw hvis

/-- C10 witness: the round trip applied to the buffer `b"ab\ncd"` at buffer
position 4. -/
theorem C10_projection_roundtrip_witness :
    (1 ≤ 5 ∧ 1 ≤ 5 ∧
      ∃ r ∈ lineRangesToVisibleLineRanges (calcLineRanges [97, 98, 10, 99, 100] 5) 5,
        r.start ≤ 4 ∧ 4 ≤ r.stop) ∧
    (∃ cp rr, bufToCursorPos [97, 98, 10, 99, 100] 5 5 4 = Except.ok cp ∧
      cursorToBufPos [97, 98, 10, 99, 100] cp 5 5 = some (4, rr)) :=
  ⟨⟨by decide, by decide, by decide⟩,
    C10_projection_roundtrip [97, 98, 10, 99, 100] 5 5 (by decide) (by decide) 4
      (by decide)⟩

/-! ### `pad_buffer_for_write`, `insert_data`, `clear_forwards` (buffer.rs) -/

/-- `unwrapped_line_end_pos` from buffer.rs: the first newline at or after
`start_pos`, or the buffer length. -/
def unwrappedLineEndPos (buf : List Nat) (startPos : Nat) : Nat :=
  match (buf.drop startPos).findIdx? (fun c => c == 10) with
  | some off => startPos + off
  | none => buf.length

/-- `pad_buffer_for_write` from buffer.rs.  Returns the padded buffer, the
write index and the inserted-padding range.  The `visible_line_ranges
[cursor_pos.y]` index is always in bounds after the vertical padding, so the
lookup is modelled with a default. -/
def padBufferForWrite (buf : List Nat) (width : Nat) (cursor : CursorPos)
    (height : Nat) (writeLen : Nat) : List Nat × Nat × URange :=
  let visibleLineRanges :=
    lineRangesToVisibleLineRanges (calcLineRanges buf width) height
  let verticalPaddingNeeded :=
    if cursor.y + 1 > visibleLineRanges.length then
      cursor.y + 1 - visibleLineRanges.length
    else 0
  let buf1 := buf ++ List.replicate verticalPaddingNeeded 10
  let visible1 := visibleLineRanges ++
    (List.range verticalPaddingNeeded).map
      (fun k => ⟨buf.length + k, buf.length + k⟩)
  let lineRange := visible1.getD cursor.y ⟨0, 0⟩
  let desiredStart := lineRange.start + cursor.x
  let desiredEnd := desiredStart + writeLen
  let actualEnd := unwrappedLineEndPos buf1 lineRange.start
  let paddingStartPos :=
    if verticalPaddingNeeded ≠ 0 then buf.length else actualEnd
  let numberOfSpaces := if desiredEnd > actualEnd then desiredEnd - actualEnd else 0
  (buf1.take actualEnd ++ List.replicate numberOfSpaces 32 ++ buf1.drop actualEnd,
    desiredStart,
    ⟨paddingStartPos, paddingStartPos + (verticalPaddingNeeded + numberOfSpaces)⟩)

/-- The response of `TerminalBuffer::insert_data`. -/
structure TerminalBufferInsertResponse where
  written_range : URange
  insertion_range : URange
  new_cursor_pos : CursorPos
deriving Repr, DecidableEq

/-- `TerminalBuffer` from buffer.rs. -/
structure TerminalBuffer where
  buf : List Nat
  width : Nat
  height : Nat
deriving Repr, DecidableEq

/-- `TerminalBuffer::insert_data`.  `none` models the two panic paths: the
slice write `self.buf[write_range]` going out of bounds and the
`.expect(...)` on the `buf_to_cursor_pos` result. -/
def insertData (tb : TerminalBuffer) (cursor : CursorPos) (data : List Nat) :
    Option (TerminalBuffer × TerminalBufferInsertResponse) :=
  match padBufferForWrite tb.buf tb.width cursor tb.height data.length with
  | (buf1, writeIdx, insertedPadding) =>
    if writeIdx + data.length ≤ buf1.length then
      match bufToCursorPos
          (buf1.take writeIdx ++ data ++ buf1.drop (writeIdx + data.length))
          tb.width tb.height (writeIdx + data.length) with
      | .ok ncp =>
        some (⟨buf1.take writeIdx ++ data ++ buf1.drop (writeIdx + data.length),
            tb.width, tb.height⟩,
          ⟨⟨writeIdx, writeIdx + data.length⟩, insertedPadding, ncp⟩)
      | .error _ => none
    else none

/-- The outcome of `TerminalBuffer::clear_forwards`: the source can panic
(out-of-bounds `self.buf[buf_pos]` or the final failed `assert_eq!`), return
`None` without touching anything, or truncate and return `Some(buf_pos)`. -/
inductive ClearForwardsResult where
  | panic
  | noop
  | cleared (buf : List Nat) (bufPos : Nat)
deriving Repr, DecidableEq

/-- `TerminalBuffer::clear_forwards` from buffer.rs. -/
def clearForwards (tb : TerminalBuffer) (cursor : CursorPos) : ClearForwardsResult :=
  match cursorToBufPosFromVisibleLineRanges cursor
      (lineRangesToVisibleLineRanges (calcLineRanges tb.buf tb.width) tb.height) with
  | none => .noop
  | some (bufPos, _) =>
    match tb.buf[bufPos]? with
    | none => .panic
    | some previousLastChar =>
      let buf1 := tb.buf.take bufPos
      let buf2 :=
        if (cursor.x = 0 ∧ 0 < bufPos ∧ buf1.getD (bufPos - 1) 0 ≠ 10) ∨
            previousLastChar = 10 then
          buf1 ++ [10]
        else buf1
      let buf3 := (lineRangesToVisibleLineRanges (calcLineRanges tb.buf tb.width)
          tb.height).foldl (fun b line => if bufPos < line.stop then b ++ [10] else b)
        buf2
      match bufToCursorPos buf3 tb.width tb.height bufPos with
      | .error _ => .panic
      | .ok pos0 =>
        if (if pos0.x = tb.width then (⟨0, pos0.y + 1⟩ : CursorPos) else pos0) =
            cursor then
          .cleared buf3 bufPos
        else .panic

/-- C4: the claim says `clear_forwards` is total.  It is not: with the
buffer `b"ab"` (no trailing newline) and the cursor at the end of the line
(`x = 2, y = 0`), the cursor maps to buffer position 2, and the very first
use of it, `self.buf[buf_pos]`, indexes one past the end of `self.buf` and
panics. -/
theorem C4_clear_forwards_panics :
    clearForwards ⟨[97, 98], 5, 5⟩ ⟨2, 0⟩ = ClearForwardsResult.panic := by
  decide

/-! ### The `Newline` command (mod.rs) -/

/-- `TerminalBuffer::append_newline_at_line_end` from mod.rs.  It calls the
mod.rs `calc_line_ranges` with `width = buf.len()`, looks up the cursor's
line, and appends a newline iff no newline exists at or after that line's
start. -/
def appendNewlineAtLineEnd (buf : List Nat) (pos : CursorPos) : List Nat :=
  match (calcLineRangesEmu buf buf.length)[pos.y]? with
  | none => buf
  | some lineRange =>
    if (buf.drop lineRange.start).any (fun b => b == 10) then buf
    else buf ++ [10]

/-- The emulator state components touched by the `Newline` arm of
`TerminalEmulator::read`. -/
structure TerminalEmulatorState where
  buf : List Nat
  format_tracker : FormatTracker
  cursor_state : CursorState

/-- The `TerminalOutput::Newline` arm of `TerminalEmulator::read`:
`append_newline_at_line_end(cursor.pos)` followed by `cursor.pos.y += 1`. -/
def applyNewline (st : TerminalEmulatorState) : TerminalEmulatorState :=
  { st with
    buf := appendNewlineAtLineEnd st.buf st.cursor_state.pos,
    cursor_state := { st.cursor_state with
      pos := ⟨st.cursor_state.pos.x, st.cursor_state.pos.y + 1⟩ } }

/-- C9 counterexample: the claim says the screen buffer bytes are unmodified
by `Newline`.  They are not: on the buffer `b"ab"` with the cursor at the
origin, the `Newline` arm appends a newline byte to the buffer. -/
theorem C9_counterexample :
    (applyNewline ⟨[97, 98], FormatTracker.new, defaultCursorState⟩).buf ≠ [97, 98] := by
  decide

/-- C9 (amended): provided `cursor.y < usize::MAX` (so the source's
`self.cursor_state.pos.y += 1` does not overflow, and the `Nat` model
coincides with the `usize` arithmetic), processing `Newline` increments
`cursor.y` by exactly 1, leaves `cursor.x` and every other cursor attribute
unchanged, leaves the format tracker unmodified, and either leaves the
buffer unchanged or (when the cursor's line exists and has no newline at or
after its start) appends exactly one newline byte — contrary to the claim,
the buffer is not always unmodified. -/
theorem C9_newline_effect (st : TerminalEmulatorState)
    (_hy : st.cursor_state.pos.y < usizeMax) :
    (applyNewline st).cursor_state.pos.y = st.cursor_state.pos.y + 1 ∧
    (applyNewline st).cursor_state.pos.x = st.cursor_state.pos.x ∧
    (applyNewline st).cursor_state.blink_mode = st.cursor_state.blink_mode ∧
    (applyNewline st).cursor_state.visible = st.cursor_state.visible ∧
    (applyNewline st).cursor_state.bold = st.cursor_state.bold ∧
    (applyNewline st).cursor_state.italic = st.cursor_state.italic ∧
    (applyNewline st).cursor_state.fg_color = st.cursor_state.fg_color ∧
    (applyNewline st).cursor_state.bg_color = st.cursor_state.bg_color ∧
    (applyNewline st).format_tracker = st.format_tracker ∧
    ((applyNewline st).buf = st.buf ∨ (applyNewline st).buf = st.buf ++ [10]) := by
  refine ⟨rfl, rfl, rfl, rfl, rfl, rfl, rfl, rfl, rfl, ?_⟩
  show appendNewlineAtLineEnd st.buf st.cursor_state.pos = st.buf ∨
    appendNewlineAtLineEnd st.buf st.cursor_state.pos = st.buf ++ [10]
  unfold appendNewlineAtLineEnd
  cases hlr : (calcLineRangesEmu st.buf st.buf.length)[st.cursor_state.pos.y]? with
  | none => exact Or.inl rfl
  | some lr =>
    show (if ((st.buf.drop lr.start).any fun b => b == 10) = true then st.buf
        else st.buf ++ [10]) = st.buf ∨
      (if ((st.buf.drop lr.start).any fun b => b == 10) = true then st.buf
        else st.buf ++ [10]) = st.buf ++ [10]
    split_ifs with hany
    · exact Or.inl rfl
    · exact Or.inr rfl

/-- The concrete emulator state the C9 witness is evaluated at. -/
def newlineWitnessState : TerminalEmulatorState :=
  ⟨[97, 98], FormatTracker.new, defaultCursorState⟩

/-- C9 witness: the frame-effect theorem applied to the buffer `b"ab"` with
the cursor at the origin (where the buffer is extended by one newline). -/
theorem C9_newline_effect_witness :
    newlineWitnessState.cursor_state.pos.y < usizeMax ∧
    ((applyNewline newlineWitnessState).cursor_state.pos.y =
        newlineWitnessState.cursor_state.pos.y + 1 ∧
      (applyNewline newlineWitnessState).cursor_state.pos.x =
        newlineWitnessState.cursor_state.pos.x ∧
      (applyNewline newlineWitnessState).cursor_state.blink_mode =
        newlineWitnessState.cursor_state.blink_mode ∧
      (applyNewline newlineWitnessState).cursor_state.visible =
        newlineWitnessState.cursor_state.visible ∧
      (applyNewline newlineWitnessState).cursor_state.bold =
        newlineWitnessState.cursor_state.bold ∧
      (applyNewline newlineWitnessState).cursor_state.italic =
        newlineWitnessState.cursor_state.italic ∧
      (applyNewline newlineWitnessState).cursor_state.fg_color =
        newlineWitnessState.cursor_state.fg_color ∧
      (applyNewline newlineWitnessState).cursor_state.bg_color =
        newlineWitnessState.cursor_state.bg_color ∧
      (applyNewline newlineWitnessState).format_tracker =
        newlineWitnessState.format_tracker ∧
      ((applyNewline newlineWitnessState).buf = newlineWitnessState.buf ∨
        (applyNewline newlineWitnessState).buf = newlineWitnessState.buf ++ [10])) :=
  ⟨by decide, C9_newline_effect newlineWitnessState (by decide)⟩

/-! ### C2: `insert_data` -/

/-- Writing `data` over `[wi, wi + |data|)` makes that slice read back as
`data`. -/
theorem sliceRange_write (buf1 data : List Nat) (wi : Nat)
    (hle : wi + data.length ≤ buf1.length) :
    sliceRange (buf1.take wi ++ data ++ buf1.drop (wi + data.length))
      ⟨wi, wi + data.length⟩ = data := by
  have hlt : (buf1.take wi).length = wi := by
    rw [List.length_take]
    omega
  show ((buf1.take wi ++ data ++ buf1.drop (wi + data.length)).take
    (wi + data.length)).drop wi = data
  rw [List.append_assoc,
    show wi + data.length = (buf1.take wi).length + data.length from by rw [hlt],
    List.take_append, List.take_left]
  exact List.drop_left' hlt

/-- C2 counterexample: the claim quantifies over every data slice, but
`insert_data` is not even total on newline-containing data.  With the buffer
`b"ab"`, the cursor at `(2, 0)` and `data = b"\n"`, the written newline
becomes the line terminator, `write_range.end` lies past the end of every
line, and the `.expect(...)` on `buf_to_cursor_pos` panics. -/
theorem C2_counterexample :
    insertData ⟨[97, 98], 5, 5⟩ ⟨2, 0⟩ [10] = none := by
  decide

/-- C2 (amended): whenever `insert_data` returns (the panic paths modelled
by `none` are not taken) and the end of the written range still lies on a
visible line of the resulting buffer, the buffer bytes at `written_range`
equal `data`, and the returned cursor maps back through `cursor_to_buf_pos`
to buffer position `written_range.end`. -/
theorem C2_insert_data {tb : TerminalBuffer} {cursor : CursorPos}
    {data : List Nat} (hw : 1 ≤ tb.width) {tb' : TerminalBuffer}
    {resp : TerminalBufferInsertResponse}
    (hres : insertData tb cursor data = some (tb', resp))
    (hvis : ∃ r ∈ lineRangesToVisibleLineRanges (calcLineRanges tb'.buf tb'.width)
        tb'.height,
      r.start ≤ resp.written_range.stop ∧ resp.written_range.stop ≤ r.stop) :
    sliceRange tb'.buf resp.written_range = data ∧
    ∃ rr, cursorToBufPos tb'.buf resp.new_cursor_pos tb'.width tb'.height =
      some (resp.written_range.stop, rr) := by
  rcases hpad : padBufferForWrite tb.buf tb.width cursor tb.height data.length with
    ⟨buf1, writeIdx, ipad⟩
  unfold insertData at hres
  rw [hpad] at hres
  dsimp only at hres
  split_ifs at hres with hlen
  · cases hbc : bufToCursorPos
        (buf1.take writeIdx ++ data ++ buf1.drop (writeIdx + data.length))
        tb.width tb.height (writeIdx + data.length) with
    | error e =>
      rw [hbc] at hres
      cases hres
    | ok ncp =>
      rw [hbc] at hres
      rw [Option.some_inj, Prod.mk.injEq] at hres
      obtain ⟨htb, hresp⟩ := hres
      subst htb
      subst hresp
      refine ⟨sliceRange_write buf1 data writeIdx hlen, ?_⟩
      obtain ⟨cp, rr, hok, hback⟩ := bufToCursorPos_roundtrip
        (buf1.take writeIdx ++ data ++ buf1.drop (writeIdx + data.length))
        tb.width tb.height (writeIdx + data.length) hw hvis
      rw [hbc] at hok
      injection hok with hok
      subst hok
      exact ⟨rr, hback⟩

/-- C2 witness: the amended theorem applied to writing `b"hi"` into an empty
5×5 buffer at the origin. -/
theorem C2_insert_data_witness :
    (1 ≤ (5 : Nat) ∧
      insertData ⟨[], 5, 5⟩ ⟨0, 0⟩ [104, 105] =
        some (⟨[104, 105, 10], 5, 5⟩, ⟨⟨0, 2⟩, ⟨0, 3⟩, ⟨2, 0⟩⟩) ∧
      ∃ r ∈ lineRangesToVisibleLineRanges (calcLineRanges [104, 105, 10] 5) 5,
        r.start ≤ 2 ∧ 2 ≤ r.stop) ∧
    (sliceRange [104, 105, 10] ⟨0, 2⟩ = [104, 105] ∧
      ∃ rr, cursorToBufPos [104, 105, 10] ⟨2, 0⟩ 5 5 = some (2, rr)) :=
  ⟨⟨by decide, by decide, by decide⟩,
    @C2_insert_data ⟨[], 5, 5⟩ ⟨0, 0⟩ [104, 105] (by decide) ⟨[104, 105, 10], 5, 5⟩
      ⟨⟨0, 2⟩, ⟨0, 3⟩, ⟨2, 0⟩⟩ (by decide) (by decide)⟩

end Terminaux
